import Mathlib

/-!
# goarne/web: request router and handler chain

A shallow embedding of `webRouter.go` and `handlerChain.go`.

Go strings are modelled as lists of characters (`Str`).  The delimiters the
code looks for (`{`, `}`, `:`, `/`) are ASCII, so searching a UTF-8 byte
sequence for them and searching the decoded character sequence agree.
-/

namespace Web

/-- A Go `string`. -/
abbrev Str := List Char

/-! ## String helpers used by `webRouter.go` -/

/-- The regexp constant `REGEX_START_OF_STRING`, the two characters `\A`. -/
def REGEX_START_OF_STRING : Str := "\\A".toList

/-- The regexp constant `REGEX_END_OF_STRING`, the two characters `\z`. -/
def REGEX_END_OF_STRING : Str := "\\z".toList

/-- The regexp constant `REGEX_URL_VARIABLE_DEF_PATTERN`, the three characters `\w*`. -/
def REGEX_URL_VARIABLE_DEF_PATTERN : Str := "\\w*".toList

/-- Scanner behind `regexp.MustCompile(REGEX_URL_VARIABLE).FindAllString(path, -1)`
for `REGEX_URL_VARIABLE = "{[^}]*?}"`: the leftmost, non-overlapping substrings
that start at a `{` and run up to the next `}`.  `cur = none` means no token is
open; `cur = some acc` holds the text of the open token read so far.  A `{` that
is never closed yields no token, and no later position can match either, since
no `}` follows it. -/
def scanVars : Option Str → Str → List Str
  | _, [] => []
  | none, c :: t => if c = '{' then scanVars (some ['{']) t else scanVars none t
  | some acc, c :: t =>
    if c = '}' then (acc ++ ['}']) :: scanVars none t else scanVars (some (acc ++ [c])) t

/-- The call `varsRegexp.FindAllString(path, -1)` of `buildPathPattern`. -/
def findAllVars (path : Str) : List Str := scanVars none path

/-- One field of `strings.Split`: `cur` is the field being read. -/
def splitAux (sep : Char) : Str → Str → List Str
  | cur, [] => [cur]
  | cur, c :: t => if c = sep then cur :: splitAux sep [] t else splitAux sep (cur ++ [c]) t

/-- The call `strings.Split(s, ":")` for a one-character separator: the fields
between the separators, always at least one field. -/
def split (s : Str) (sep : Char) : List Str := splitAux sep [] s

/-- Test whether `p` is an initial segment of `s`. -/
def startsWith : Str → Str → Bool
  | [], _ => true
  | _ :: _, [] => false
  | a :: p, b :: s => a == b && startsWith p s

/-- The call `strings.Replace(s, old, new, 1)`: the first occurrence of `old`
in `s` is replaced by `new`; `s` is returned unchanged when `old` does not occur. -/
def replaceFirst : Str → Str → Str → Str
  | [], old, new => if startsWith old [] then new else []
  | c :: t, old, new =>
    if startsWith old (c :: t) then new ++ (c :: t).drop old.length
    else c :: replaceFirst t old new

/-- Body of the loop of `buildPathPattern`: the named group built for token `v`. -/
def namedPattern (v : Str) : Str :=
  -- variable := v[1 : len(v)-1]
  let varText := (v.drop 1).take (v.length - 2)
  let variableContent := split varText ':'
  let namedPattern := "(?P<".toList ++ variableContent.headD [] ++ ">".toList
  let variablePattern :=
    if variableContent.length = 2 then variableContent.getD 1 [] else REGEX_URL_VARIABLE_DEF_PATTERN
  namedPattern ++ variablePattern ++ ")".toList

/-- The loop of `buildPathPattern`: each token, in the order found, replaces
its first textual occurrence in the path rewritten so far. -/
def replaceVars (path : Str) (vars : List Str) : Str :=
  vars.foldl (fun p v => replaceFirst p v (namedPattern v)) path

/-- The pattern string that `buildPathPattern` hands to `regexp.MustCompile`. -/
def buildPathPattern (rootPath : Str) : Str :=
  let path := replaceVars rootPath (findAllVars rootPath)
  REGEX_START_OF_STRING ++ path ++ REGEX_END_OF_STRING

/-- Positional rewriting of a path template, as the specification words it:
every token (a leftmost, non-overlapping stretch from a `{` to the next `}`) is
replaced where it stands by its named group, all other text is kept.  The
argument `cur` is the token being read, as in `scanVars`; the text of a token
that is never closed is kept as it is. -/
def positionalRewrite : Option Str → Str → Str
  | none, [] => []
  | some acc, [] => acc
  | none, c :: t => if c = '{' then positionalRewrite (some ['{']) t else c :: positionalRewrite none t
  | some acc, c :: t =>
    if c = '}' then namedPattern (acc ++ ['}']) ++ positionalRewrite none t
    else positionalRewrite (some (acc ++ [c])) t

/-- The pattern the specification describes: the template between the two
anchors, with every token replaced in place. -/
def positionalPattern (rootPath : Str) : Str :=
  REGEX_START_OF_STRING ++ positionalRewrite none rootPath ++ REGEX_END_OF_STRING

/-- The name of a token `v`, the text `variableContent[0]` of `buildPathPattern`. -/
def tokenName (v : Str) : Str := (split ((v.drop 1).take (v.length - 2)) ':').headD []

/-- Rewritten text in which no token can start: every `{` is followed, before
any `:` or `}`, by a `)`. -/
def Sealed : Str → Prop
  | [] => True
  | c :: t => (c = '{' → ∃ x u, t = x ++ ')' :: u ∧ ':' ∉ x ∧ '}' ∉ x) ∧ Sealed t

/-! ## `handlerChain.go` -/

/-- The type `ReqState`: the four constants in their declared order
(`READY = 0`, `ACTIVE`, `FINNISHED`, `STOPPED`). -/
inductive ReqState where
  | READY
  | ACTIVE
  | FINNISHED
  | STOPPED
  deriving DecidableEq, Repr

/-- An `*http.Request`, reduced to what the router reads and writes: the
method, `URL.Path`, the header map and the query parameters.  `query` is the
parsed view `URL.Query()` of `URL.RawQuery`; storing `params.Encode()` into
`RawQuery` and parsing it again gives the same parameter values, so the
assignment `req.URL.RawQuery = params.Encode()` is modelled as storing `params`. -/
structure Request where
  method : Str
  path : Str
  header : List (Str × List Str)
  query : List (Str × List Str)
  deriving DecidableEq, Repr

/-- The struct `ChainedReq`: the response sink (of an arbitrary type `W`), the
request and the state shared by the handlers of a chain. -/
structure ChainedReq (W : Type) where
  Resp : W
  Req : Request
  State : ReqState

/-- The interface `ChainedHandler`: `ServeReq(c *ChainedReq)` may change
everything the record holds, its `State` included. -/
abbrev ChainedHandler (W : Type) := ChainedReq W → ChainedReq W

/-- The struct `HandlerChain`. -/
structure HandlerChain (W : Type) where
  numExc : Nat
  handlers : List (ChainedHandler W)

/-- The zero value `HandlerChain{}`. -/
def HandlerChain.empty (W : Type) : HandlerChain W := ⟨0, []⟩

/-- The method `HandlerChain.Add`. -/
def HandlerChain.Add {W : Type} (h : HandlerChain W) (c : ChainedHandler W) : HandlerChain W :=
  { h with handlers := h.handlers ++ [c] }

/-- What a run of the loop of `ServeHTTP` leaves behind: the counter `numExc`,
the shared record, and a log of the indices of the handlers whose `ServeReq`
was called, in call order.  The log is not a variable of the program; it
records the calls so that statements can speak about them. -/
structure ChainRun (W : Type) where
  numExc : Nat
  chainedReq : ChainedReq W
  invoked : List Nat

/-- The loop `for i, c := range h.handlers` of `HandlerChain.ServeHTTP`, from
index `i` on, over the handlers still to be visited. -/
def HandlerChain.serveLoop {W : Type} : List (ChainedHandler W) → Nat → ChainRun W → ChainRun W
  | [], _, run => run
  | c :: cs, i, run =>
    -- h.numExc = i + 1 ; c.ServeReq(chainedReq)
    let run1 : ChainRun W := ⟨i + 1, c run.chainedReq, run.invoked ++ [i]⟩
    if run1.chainedReq.State = ReqState.STOPPED then run1
    else HandlerChain.serveLoop cs (i + 1) run1

/-- The method `HandlerChain.ServeHTTP`: the chain afterwards, the record
`chainedReq` as it is when the method returns, and the log of calls. -/
def HandlerChain.ServeHTTP {W : Type} (h : HandlerChain W) (w : W) (r : Request) :
    HandlerChain W × ChainedReq W × List Nat :=
  let run := HandlerChain.serveLoop h.handlers 0 ⟨h.numExc, ⟨w, r, ReqState.READY⟩, []⟩
  ({ h with numExc := run.numExc }, { run.chainedReq with State := ReqState.FINNISHED }, run.invoked)

/-- The record after the first `j` handlers of `hs` have run one after the
other on `c`, without any test in between. -/
def runHandlers {W : Type} (hs : List (ChainedHandler W)) (j : Nat) (c : ChainedReq W) :
    ChainedReq W :=
  (hs.take j).foldl (fun acc f => f acc) c

/-! ## `webRouter.go`: requests and compiled patterns -/

/-- A compiled `*regexp.Regexp`, seen through the three methods the router
calls.  `FindStringSubmatch s = none` is Go's `nil` result (no match);
otherwise the list holds the text of the whole match followed by the text of
each group, as many entries as `SubexpNames` has names. -/
structure Regexp where
  SubexpNames : List Str
  FindStringSubmatch : Str → Option (List Str)
  submatch_length : ∀ s m, FindStringSubmatch s = some m → m.length = SubexpNames.length

/-- The method `Regexp.Match`: whether the text contains a match. -/
def Regexp.Match (re : Regexp) (b : Str) : Bool := (re.FindStringSubmatch b).isSome

/-- The table `isTokenTable` behind `validHeaderFieldByte` of `net/textproto`. -/
def validHeaderFieldByte (c : Char) : Bool :=
  c.isAlphanum || "!#$%&*+-.^_|~".toList.contains c || c = Char.ofNat 39 || c = Char.ofNat 96

/-- The case pass of `canonicalMIMEHeaderKey`: upper case at the start and
after each `-`, lower case elsewhere. -/
def canonicalCase : Bool → Str → Str
  | _, [] => []
  | upper, c :: t =>
    let c1 := if upper then c.toUpper else c.toLower
    c1 :: canonicalCase (c1 = '-') t

/-- The function `textproto.CanonicalMIMEHeaderKey`: a key made of header
token characters only is put into canonical case, any other key is returned
unchanged. -/
def canonicalMIMEHeaderKey (s : Str) : Str :=
  if s.all validHeaderFieldByte then canonicalCase true s else s

/-- The method `http.Header.Get`: the first value stored under the canonical
form of the key, `""` when there is none. -/
def Request.headerGet (req : Request) (k : Str) : Str :=
  match req.header.lookup (canonicalMIMEHeaderKey k) with
  | some (v :: _) => v
  | _ => []

/-- Assignment `m[k] = v` on a Go map kept as an association list. -/
def mapSet {α : Type} : List (Str × α) → Str → α → List (Str × α)
  | [], k, v => [(k, v)]
  | (k1, v1) :: t, k, v => if k1 = k then (k, v) :: t else (k1, v1) :: mapSet t k v

/-- The method `url.Values.Add`: `v[key] = append(v[key], value)`. -/
def valuesAdd (vs : List (Str × List Str)) (key value : Str) : List (Str × List Str) :=
  mapSet vs key ((vs.lookup key).getD [] ++ [value])

/-- The method `url.Values.Get`: the first value of the key, `""` when there is none. -/
def valuesGet (vs : List (Str × List Str)) (key : Str) : Str :=
  match vs.lookup key with
  | some (v :: _) => v
  | _ => []

/-! ## `webRouter.go`: routes -/

/-- The struct `Route`; `H` is the type of `http.Handler` values.  `methods`
lists the keys of the map `methods` (every stored value is `true`);
`urlMatcher` and `handler` are `none` while the Go field is `nil`. -/
structure Route (H : Type) where
  methods : List Str
  urlMatcher : Option Regexp
  urlVariables : List (Str × Str)
  rootPath : Str
  pathPrefixMatchers : List Regexp
  headers : List (Str × Regexp)
  handler : Option H

/-- The constructor `NewRoute`. -/
def NewRoute (H : Type) : Route H :=
  { methods := [], urlMatcher := none, urlVariables := [], rootPath := [],
    pathPrefixMatchers := [], headers := [], handler := none }

/-- The method `Route.Path`, for a given `regexp.MustCompile` (`compile`
returns `none` where `MustCompile` panics, and so does `Path`). -/
def Route.Path {H : Type} (compile : Str → Option Regexp) (r : Route H) (path : Str) :
    Option (Route H) :=
  match compile (buildPathPattern path) with
  | none => none
  | some re => some { r with rootPath := path, urlMatcher := some re }

/-- The method `Route.Handler`. -/
def Route.Handler {H : Type} (r : Route H) (h : H) : Route H := { r with handler := some h }

/-- The method `Route.matchPathPrefix`: whether some prefix matcher, in
registration order, finds a match in the request path. -/
def Route.matchPathPrefix {H : Type} (r : Route H) (req : Request) : Bool :=
  r.pathPrefixMatchers.any (fun m => m.Match req.path)

/-- One round of the loop of `parseVariables` over `SubexpNames()`: `p` is the
pair of index and name, `m` the submatch list. -/
def parseVariablesStep (m : List Str)
    (acc : List (Str × Str) × List (Str × List Str)) (p : Nat × Str) :
    List (Str × Str) × List (Str × List Str) :=
  if p.1 = 0 ∨ p.2 = [] then acc
  else (mapSet acc.1 p.2 (m.getD p.1 []), valuesAdd acc.2 p.2 (m.getD p.1 []))

/-- The method `Route.parseVariables`, for the matcher `re` of the route. -/
def Route.parseVariables {H : Type} (r : Route H) (re : Regexp) (req : Request) :
    Route H × Request :=
  match re.FindStringSubmatch req.path with
  | none => (r, req)
  | some m =>
    let res := re.SubexpNames.enum.foldl (parseVariablesStep m) (r.urlVariables, req.query)
    ({ r with urlVariables := res.1 }, { req with query := res.2 })

/-- The header loop of `Route.match`: every required header value of the
request matches its pattern. -/
def Route.headersOk {H : Type} (r : Route H) (req : Request) : Bool :=
  r.headers.all (fun kv => kv.2.Match (req.headerGet kv.1))

/-- The method `Route.match`.  The result is `none` when the call panics (a
route on which `Path` was never called has a `nil` matcher); otherwise it is
the returned truth value with the route and the request as the call leaves them. -/
def Route.matchReq {H : Type} (r : Route H) (req : Request) : Option (Bool × Route H × Request) :=
  match r.urlMatcher with
  | none => none
  | some re =>
    if !re.Match req.path && !r.matchPathPrefix req then some (false, r, req)
    else if decide (r.methods.length > 0) && !r.methods.contains req.method then
      some (false, r, req)
    else if !r.headersOk req then some (false, r, req)
    else
      let res := r.parseVariables re req
      some (true, res.1, res.2)

/-- The truth value returned by `Route.match`, `none` when the call panics. -/
def Route.matchResult {H : Type} (r : Route H) (req : Request) : Option Bool :=
  (r.matchReq req).map (fun res => res.1)

/-- The method `Route.Method`, for a given `strings.ToUpper` (the argument
`upper`): the upper-cased name is stored unless the set holds it already. -/
def Route.MethodWith {H : Type} (upper : Str → Str) (r : Route H) (m : Str) : Route H :=
  if r.methods.contains (upper m) then r else { r with methods := r.methods ++ [upper m] }

/-- The function `strings.ToUpper` on ASCII text: the letters `a` to `z` become
`A` to `Z`.  On other letters `strings.ToUpper` follows the Unicode tables;
statements about arbitrary method names take the function as an argument
(`Route.MethodWith`). -/
def toUpper (s : Str) : Str := s.map Char.toUpper

/-- The method `Route.Method` on ASCII method names. -/
def Route.Method {H : Type} (r : Route H) (m : Str) : Route H := r.MethodWith toUpper m

/-! ## `webRouter.go`: the router -/

/-- The struct `WebRouter`. -/
structure WebRouter (H : Type) where
  routes : List (Route H)

/-- The constructor `NewWebRouter`. -/
def NewWebRouter (H : Type) : WebRouter H := ⟨[]⟩

/-- The method `WebRouter.AddRoute`. -/
def WebRouter.AddRoute {H : Type} (wr : WebRouter H) (r : Route H) : WebRouter H :=
  ⟨wr.routes ++ [r]⟩

/-- The method `WebRouter.routeCount`. -/
def WebRouter.routeCount {H : Type} (wr : WebRouter H) : Nat := wr.routes.length

/-- The loop of `findRoute` over the routes from index `i` on.  `seen` holds
the routes already visited (as their `match` calls left them).  The result is
`none` when a `match` call panics; otherwise the index of the route returned
(`none` for Go's `nil`), the routes and the request afterwards. -/
def findRouteLoop {H : Type} : List (Route H) → Nat → List (Route H) → Request →
    Option (Option Nat × List (Route H) × Request)
  | [], _, seen, req => some (none, seen, req)
  | v :: vs, i, seen, req =>
    match v.matchReq req with
    | none => none
    | some (true, v1, req1) => some (some i, seen ++ v1 :: vs, req1)
    | some (false, v1, req1) => findRouteLoop vs (i + 1) (seen ++ [v1]) req1

/-- The method `WebRouter.findRoute`; the route returned is named by its
position in `routes`. -/
def WebRouter.findRoute {H : Type} (wr : WebRouter H) (req : Request) :
    Option (Option Nat × WebRouter H × Request) :=
  (findRouteLoop wr.routes 0 [] req).map (fun res => (res.1, ⟨res.2.1⟩, res.2.2))

/-! ## A reference matcher for a fragment of Go's `regexp` syntax

The router leaves all matching to the standard package `regexp`.  To evaluate
routes on concrete paths, the fragment of the pattern syntax below is given a
direct backtracking semantics with Go's leftmost-first preference: literal
characters, `.`, the escapes `\A`, `\z`, `\d`, `\w` and escaped punctuation,
the greedy operators `*`, `+`, `?`, and the groups `(...)` and `(?P<name>...)`.
-/

/-- The character classes of the fragment. -/
inductive CharClass where
  | any
  | digit
  | word
  deriving DecidableEq, Repr

/-- Membership of a character in a class: `.` is any character but a line
feed, `\d` is `[0-9]`, `\w` is `[0-9A-Za-z_]`. -/
def CharClass.test : CharClass → Char → Bool
  | .any, c => c != '\n'
  | .digit, c => c.isDigit
  | .word, c => c.isAlphanum || c == '_'

/-- The abstract syntax of the fragment. -/
inductive Re where
  | empty
  | char (c : Char)
  | cls (k : CharClass)
  | beginText
  | endText
  | seq (a b : Re)
  | alt (a b : Re)
  | star (a : Re)
  | group (idx : Nat) (a : Re)
  deriving DecidableEq, Repr

/-- A position of the matcher: `pos` characters of the text are behind it,
`rest` is still ahead, `caps` holds the groups closed so far (latest first). -/
structure MState where
  pos : Nat
  rest : Str
  caps : List (Nat × Str)
  deriving DecidableEq, Repr

/-- Iteration of `step` for the operator `*`, longest first; a round that
consumes nothing is not repeated.  The counter bounds the rounds by the
length of the text ahead. -/
def starLoop (step : MState → List MState) : Nat → MState → List MState
  | 0, st => [st]
  | n + 1, st =>
    ((step st).filter (fun st1 => decide (st1.rest.length < st.rest.length))).flatMap
      (starLoop step n) ++ [st]

/-- All ways of matching `re` at a position, in order of preference. -/
def Re.run : Re → MState → List MState
  | .empty, st => [st]
  | .char c, st =>
    match st.rest with
    | [] => []
    | d :: t => if d = c then [{ st with pos := st.pos + 1, rest := t }] else []
  | .cls k, st =>
    match st.rest with
    | [] => []
    | d :: t => if k.test d then [{ st with pos := st.pos + 1, rest := t }] else []
  | .beginText, st => if st.pos = 0 then [st] else []
  | .endText, st => if st.rest = [] then [st] else []
  | .seq a b, st => (a.run st).flatMap b.run
  | .alt a b, st => a.run st ++ b.run st
  | .star a, st => starLoop a.run st.rest.length st
  | .group idx a, st =>
    (a.run st).map (fun st1 =>
      { st1 with caps := (idx, st.rest.take (st.rest.length - st1.rest.length)) :: st1.caps })

/-- Search for the leftmost match: the text from the start of the match on,
with the matcher position at its end. -/
def Re.search (re : Re) : Nat → Str → Option (Str × MState)
  | pos, [] => (re.run ⟨pos, [], []⟩).head?.map (fun st => ([], st))
  | pos, c :: t =>
    match re.run ⟨pos, c :: t, []⟩ with
    | st :: _ => some (c :: t, st)
    | [] => re.search (pos + 1) t

/-- The submatch list of a found match over `n` groups: the whole match, then
the text of each group, `""` for a group that took no part. -/
def submatches (n : Nat) (found : Str × MState) : List Str :=
  found.1.take (found.1.length - found.2.rest.length) ::
    (List.range n).map (fun i => (found.2.caps.lookup (i + 1)).getD [])

/-- The lexical items of a pattern. -/
inductive Tok where
  | atom (a : Re)
  | star
  | plus
  | quest
  | openGroup (name : Str)
  | close
  deriving DecidableEq, Repr

/-- Where the lexer stands: in plain text, after a backslash, after `(`,
after `(?`, after `(?P`, or inside the name of `(?P<name>`. -/
inductive LexMode where
  | normal
  | esc
  | lp
  | lpq
  | lpqp
  | name (acc : Str)
  deriving DecidableEq, Repr

/-- Characters with a meaning of their own in a pattern. -/
def isMeta (c : Char) : Bool := "\\.+*?()|[]\x7b\x7d^$".toList.contains c

/-- One character of plain pattern text.  The operators `|`, `[`, `]`, `{`,
`}`, `^` and `$` are outside the fragment. -/
def lexNormal (c : Char) : Option (List Tok × LexMode) :=
  if c = '\\' then some ([], .esc)
  else if c = '(' then some ([], .lp)
  else if c = ')' then some ([.close], .normal)
  else if c = '*' then some ([.star], .normal)
  else if c = '+' then some ([.plus], .normal)
  else if c = '?' then some ([.quest], .normal)
  else if c = '.' then some ([.atom (.cls .any)], .normal)
  else if isMeta c then none
  else some ([.atom (.char c)], .normal)

/-- The character after a backslash. -/
def lexEscape (c : Char) : Option Tok :=
  if c = 'A' then some (.atom .beginText)
  else if c = 'z' then some (.atom .endText)
  else if c = 'd' then some (.atom (.cls .digit))
  else if c = 'w' then some (.atom (.cls .word))
  else if c.toNat < 128 ∧ ¬ c.isAlphanum then some (.atom (.char c))
  else none

/-- One step of the lexer: the items completed by the character and the mode
for the next one. -/
def lexStep : LexMode → Char → Option (List Tok × LexMode)
  | .normal, c => lexNormal c
  | .esc, c => (lexEscape c).map (fun tk => ([tk], .normal))
  | .lp, c =>
    if c = '?' then some ([], .lpq)
    else (lexNormal c).map (fun r => (Tok.openGroup [] :: r.1, r.2))
  | .lpq, c => if c = 'P' then some ([], .lpqp) else none
  | .lpqp, c => if c = '<' then some ([], .name []) else none
  | .name acc, c =>
    if c = '>' then (if acc = [] then none else some ([.openGroup acc], .normal))
    else if CharClass.word.test c then some ([], .name (acc ++ [c]))
    else none

/-- The lexer; a pattern that ends inside an escape or a group header is rejected. -/
def lexPattern : LexMode → Str → Option (List Tok)
  | m, [] => if m = .normal then some [] else none
  | m, c :: t =>
    match lexStep m c with
    | none => none
    | some r => (lexPattern r.2 t).map (fun ts => r.1 ++ ts)

/-- A group being parsed: its items so far, latest first, whether the latest
item is the result of a repetition operator, and the index of the group. -/
structure Frame where
  items : List Re
  repeated : Bool
  idx : Nat
  deriving DecidableEq, Repr

/-- The parser: the open groups, innermost first, with the whole pattern as
the outermost one, and the names of the groups opened so far. -/
structure PState where
  stack : List Frame
  names : List Str
  deriving DecidableEq, Repr

/-- The concatenation of the items of a group, given latest first. -/
def mkSeq (items : List Re) : Re := items.foldl (fun acc x => Re.seq x acc) Re.empty

/-- A repetition operator applies to the latest item, which must exist and
must not be a repetition itself. -/
def applyRepeat (q : Re → Re) (ps : PState) : Option PState :=
  match ps.stack with
  | ⟨x :: xs, false, idx⟩ :: fs => some { ps with stack := ⟨q x :: xs, true, idx⟩ :: fs }
  | _ => none

/-- One item of the pattern. -/
def parseStep (ps : PState) : Tok → Option PState
  | .atom a =>
    match ps.stack with
    | f :: fs => some { ps with stack := ⟨a :: f.items, false, f.idx⟩ :: fs }
    | [] => none
  | .star => applyRepeat Re.star ps
  | .plus => applyRepeat (fun x => Re.seq x (Re.star x)) ps
  | .quest => applyRepeat (fun x => Re.alt x Re.empty) ps
  | .openGroup name =>
    some { stack := ⟨[], false, ps.names.length + 1⟩ :: ps.stack, names := ps.names ++ [name] }
  | .close =>
    match ps.stack with
    | f :: g :: fs =>
      some { ps with stack := ⟨Re.group f.idx (mkSeq f.items) :: g.items, false, g.idx⟩ :: fs }
    | _ => none

/-- The parser over a list of items. -/
def parseToks : PState → List Tok → Option PState
  | ps, [] => some ps
  | ps, tk :: tks =>
    match parseStep ps tk with
    | none => none
    | some ps1 => parseToks ps1 tks

/-- Syntax tree and group names of a pattern of the fragment. -/
def parsePattern (pattern : Str) : Option (Re × List Str) :=
  match lexPattern .normal pattern with
  | none => none
  | some toks =>
    match parseToks ⟨[⟨[], false, 0⟩], []⟩ toks with
    | some ⟨[f], names⟩ => some (mkSeq f.items, names)
    | _ => none

/-- The compiled form of a syntax tree with the given group names. -/
def Regexp.ofRe (re : Re) (names : List Str) : Regexp where
  SubexpNames := [] :: names
  FindStringSubmatch := fun s => (re.search 0 s).map (submatches names.length)
  submatch_length := by
    intro s m h
    cases hs : re.search 0 s with
    | none => simp [hs] at h
    | some found =>
      simp only [hs, Option.map_some', Option.some.injEq] at h
      subst h
      simp [submatches]

/-- The function `regexp.MustCompile` on the fragment: `none` where the pattern
is rejected (Go panics) and also where it uses syntax outside the fragment. -/
def goCompile (pattern : Str) : Option Regexp :=
  (parsePattern pattern).map (fun r => Regexp.ofRe r.1 r.2)

/-- The route `NewRoute().Path(path)` under `goCompile`; the unbuilt route
stands in where `Path` panics. -/
def pathRoute (H : Type) (path : Str) : Route H :=
  ((NewRoute H).Path goCompile path).getD (NewRoute H)

/-- The syntax tree of `\A` + `P` + `\z` for a text `P` of plain characters. -/
def anchoredLiteral (P : Str) : Re :=
  Re.seq Re.beginText ((P.map Re.char).foldr Re.seq (Re.seq Re.endText Re.empty))

/-! ## `webRouter.go`: the other builder methods -/

/-- The call `strings.Replace(s, "//", "/", -1)`: every occurrence of `//`,
found from left to right without overlap, becomes `/`. -/
def collapseSlashes : Str → Str
  | [] => []
  | [c] => [c]
  | c :: d :: t =>
    if c = '/' ∧ d = '/' then '/' :: collapseSlashes t else c :: collapseSlashes (d :: t)

/-- The method `Route.PathPrefix`, for a given `regexp.MustCompile` (`none`
where it panics). -/
def Route.PathPrefix {H : Type} (compile : Str → Option Regexp) (r : Route H) (path : Str) :
    Option (Route H) :=
  match compile (collapseSlashes (r.rootPath ++ path)) with
  | none => none
  | some re => some { r with pathPrefixMatchers := r.pathPrefixMatchers ++ [re] }

/-- The method `Route.Header`, for a given `regexp.MustCompile`: the pattern is
compiled and stored only when the map has no entry for the key yet. -/
def Route.Header {H : Type} (compile : Str → Option Regexp) (r : Route H) (k v : Str) :
    Option (Route H) :=
  match r.headers.lookup k with
  | some _ => some r
  | none =>
    match compile v with
    | none => none
    | some re => some { r with headers := r.headers ++ [(k, re)] }

/-- One call on a route that returns: a builder method, or `match` on some
request (which may store variables in the route). -/
inductive Route.Step {H : Type} (compile : Str → Option Regexp) : Route H → Route H → Prop where
  | path (r r1 : Route H) (t : Str) : r.Path compile t = some r1 → Route.Step compile r r1
  | pathPrefix (r r1 : Route H) (t : Str) :
    r.PathPrefix compile t = some r1 → Route.Step compile r r1
  | method (r : Route H) (m : Str) : Route.Step compile r (r.Method m)
  | header (r r1 : Route H) (k v : Str) :
    r.Header compile k v = some r1 → Route.Step compile r r1
  | handler (r : Route H) (h : H) : Route.Step compile r (r.Handler h)
  | matched (r r1 : Route H) (req req1 : Request) (b : Bool) :
    r.matchReq req = some (b, r1, req1) → Route.Step compile r r1

/-- Any number of calls on a route, one after the other. -/
def Route.Steps {H : Type} (compile : Str → Option Regexp) : Route H → Route H → Prop :=
  Relation.ReflTransGen (Route.Step compile)

/-! ## `webRouter.go`: serving a request -/

/-- An `http.ResponseWriter`, after `httptest.ResponseRecorder`: the status
code, whether the header has been written, the header map and the body. -/
structure ResponseWriter where
  Code : Nat
  wroteHeader : Bool
  HeaderMap : List (Str × List Str)
  Body : Str
  deriving DecidableEq, Repr

/-- The constructor `httptest.NewRecorder`. -/
def NewRecorder : ResponseWriter := ⟨200, false, [], []⟩

/-- The method `WriteHeader`: the first status code written is kept. -/
def ResponseWriter.WriteHeader (w : ResponseWriter) (code : Nat) : ResponseWriter :=
  if w.wroteHeader then w else { w with Code := code, wroteHeader := true }

/-- The method `Write`: status 200 is written first if no status was, then the
text is added to the body. -/
def ResponseWriter.Write (w : ResponseWriter) (b : Str) : ResponseWriter :=
  let w1 := w.WriteHeader 200
  { w1 with Body := w1.Body ++ b }

/-- The call `w.Header().Set(k, v)`. -/
def ResponseWriter.headerSet (w : ResponseWriter) (k v : Str) : ResponseWriter :=
  { w with HeaderMap := mapSet w.HeaderMap (canonicalMIMEHeaderKey k) [v] }

/-- The call `w.Header().Del(k)`. -/
def ResponseWriter.headerDel (w : ResponseWriter) (k : Str) : ResponseWriter :=
  { w with HeaderMap := w.HeaderMap.filter (fun kv => kv.1 != canonicalMIMEHeaderKey k) }

/-- The function `http.Error`: the header field `Content-Length` is deleted,
two header fields are set, then come the status code and the message followed
by a line feed. -/
def httpError (w : ResponseWriter) (error : Str) (code : Nat) : ResponseWriter :=
  ((((w.headerDel "Content-Length".toList).headerSet "Content-Type".toList
    "text/plain; charset=utf-8".toList).headerSet
    "X-Content-Type-Options".toList "nosniff".toList).WriteHeader code).Write (error ++ ['\n'])

/-- An `http.Handler`: what `ServeHTTP(w, req)` makes of the response writer. -/
abbrev Handler := ResponseWriter → Request → ResponseWriter

/-- What a call of `WebRouter.ServeHTTP` leaves behind: the router, the
response writer, the request, and a log of the handler calls made (position of
the route, response writer and request handed over).  The log is not a
variable of the program; it records the calls so that statements can speak
about them. -/
structure Served where
  router : WebRouter Handler
  resp : ResponseWriter
  req : Request
  calls : List (Nat × ResponseWriter × Request)

/-- The method `WebRouter.ServeHTTP`.  The result is `none` when the call
panics: in `findRoute`, or on a matched route whose `handler` is `nil`. -/
def WebRouter.ServeHTTP (wr : WebRouter Handler) (w : ResponseWriter) (req : Request) :
    Option Served :=
  let p := req.path
  match wr.findRoute req with
  | none => none
  | some (none, wr1, req1) =>
    some ⟨wr1, httpError w ("Could not find route for: ".toList ++ p) 404, req1, []⟩
  | some (some i, wr1, req1) =>
    match wr1.routes[i]? with
    | none => none
    | some r =>
      match r.handler with
      | none => none
      | some h => some ⟨wr1, h w req1, req1, [(i, w, req1)]⟩

/-! ## Observing the state handed to a chained handler -/

/-- The handler `c`, made to note the state of the record it is handed: the
response writer carries, next to that of `c`, the list of states noted so far. -/
def observed {W : Type} (c : ChainedHandler W) : ChainedHandler (W × List ReqState) :=
  fun cr =>
    let out := c ⟨cr.Resp.1, cr.Req, cr.State⟩
    ⟨(out.Resp, cr.Resp.2 ++ [cr.State]), out.Req, out.State⟩

/-- The handler that leaves the record as it is. -/
def idleHandler {W : Type} : ChainedHandler W := fun c => c

/-! ## Test fixtures of `handlerChain_test.go` -/

/-- The handler `MockHandlerReady`. -/
def MockHandlerReady : ChainedHandler Unit := fun c => { c with State := ReqState.READY }

/-- The handler `MockHandlerActive`. -/
def MockHandlerActive : ChainedHandler Unit := fun c => { c with State := ReqState.ACTIVE }

/-- The handler `MockHandlerStopped`. -/
def MockHandlerStopped : ChainedHandler Unit := fun c => { c with State := ReqState.STOPPED }

/-- The handler `MockHandlerFinnished`. -/
def MockHandlerFinnished : ChainedHandler Unit := fun c => { c with State := ReqState.FINNISHED }

/-- The helper `createGetRequest` of `webRouter_test.go`. -/
def createGetRequest (path : Str) : Request := ⟨"GET".toList, path, [], []⟩

/-- The helper `createPostRequest` of `webRouter_test.go`. -/
def createPostRequest (path : Str) : Request := ⟨"POST".toList, path, [], []⟩

/-- The route `NewRoute().Path(path).Header(k, v)` under `goCompile`. -/
def headerRoute (H : Type) (path k v : Str) : Route H :=
  ((pathRoute H path).Header goCompile k v).getD (NewRoute H)

/-- The route `NewRoute().Path(path).PathPrefix(p)` under `goCompile`. -/
def prefixRoute (H : Type) (path p : Str) : Route H :=
  ((pathRoute H path).PathPrefix goCompile p).getD (NewRoute H)

/-- The route of `TestFindRouteWithPathPrefix`, holding a variable left by an
earlier request. -/
def staleRoute : Route Unit :=
  { prefixRoute Unit "/route/article/".toList "/css/".toList with
    urlVariables := [("id".toList, "7".toList)] }

/-- A request for a style sheet below the route of
`TestFindRouteWithPathPrefix`, with a query parameter. -/
def cssRequest : Request :=
  ⟨"GET".toList, "/route/article/css/mystylesheet.css".toList, [], [("q".toList, ["1".toList])]⟩

/-- A handler that writes the value of the query parameter `id` to the body. -/
def idHandler : Handler := fun w r => w.Write (valuesGet r.query "id".toList)

/-- The router of `TestHandlerServieHTTPWithId`. -/
def idRouter : WebRouter Handler :=
  (NewWebRouter Handler).AddRoute
    ((pathRoute Handler "/route/articles/\x7bid:\\d*\x7d".toList).Handler idHandler)

end Web

namespace Web

/-! ## The handler chain -/

section Chain

variable {W : Type}

theorem runHandlers_cons (c : ChainedHandler W) (cs : List (ChainedHandler W)) (j : Nat)
    (cr : ChainedReq W) : runHandlers (c :: cs) (j + 1) cr = runHandlers cs j (c cr) := by
  simp [runHandlers]

theorem runHandlers_zero (hs : List (ChainedHandler W)) (cr : ChainedReq W) :
    runHandlers hs 0 cr = cr := by
  simp [runHandlers]

/-- The loop stops right after the first handler that leaves `STOPPED`. -/
theorem serveLoop_stopped (hs : List (ChainedHandler W)) :
    ∀ (i : Nat) (run : ChainRun W) (k : Nat), 1 ≤ k → k ≤ hs.length →
      (∀ j, 1 ≤ j → j < k → (runHandlers hs j run.chainedReq).State ≠ ReqState.STOPPED) →
      (runHandlers hs k run.chainedReq).State = ReqState.STOPPED →
      HandlerChain.serveLoop hs i run
        = ⟨i + k, runHandlers hs k run.chainedReq, run.invoked ++ List.range' i k⟩ := by
  induction hs with
  | nil => intro i run k h1 h2; simp at h2; omega
  | cons c cs ih =>
    intro i run k h1 h2 hbefore hstop
    obtain ⟨k, rfl⟩ : ∃ k1, k = k1 + 1 := ⟨k - 1, by omega⟩
    rw [runHandlers_cons] at hstop
    cases k with
    | zero =>
      rw [runHandlers_zero] at hstop
      simp [HandlerChain.serveLoop, hstop, runHandlers_cons, runHandlers_zero, List.range']
    | succ k =>
      have hc : (c run.chainedReq).State ≠ ReqState.STOPPED := by
        have := hbefore 1 (le_refl 1) (by omega)
        rwa [runHandlers_cons, runHandlers_zero] at this
      have hlen : k + 1 ≤ cs.length := by simpa using h2
      have hrec := ih (i + 1) ⟨i + 1, c run.chainedReq, run.invoked ++ [i]⟩ (k + 1)
        (by omega) hlen
        (by
          intro j hj1 hj2
          have := hbefore (j + 1) (by omega) (by omega)
          rwa [runHandlers_cons] at this)
        hstop
      simp only [HandlerChain.serveLoop, hc, if_false]
      rw [hrec, runHandlers_cons]
      simp [List.range', Nat.add_assoc, Nat.add_comm 1]

/-- The loop visits every handler when none leaves `STOPPED`. -/
theorem serveLoop_exhausted (hs : List (ChainedHandler W)) :
    ∀ (i : Nat) (run : ChainRun W),
      (∀ j, 1 ≤ j → j ≤ hs.length →
        (runHandlers hs j run.chainedReq).State ≠ ReqState.STOPPED) →
      HandlerChain.serveLoop hs i run
        = ⟨if hs.length = 0 then run.numExc else i + hs.length,
            runHandlers hs hs.length run.chainedReq, run.invoked ++ List.range' i hs.length⟩ := by
  induction hs with
  | nil => intro i run _; simp [HandlerChain.serveLoop, runHandlers]
  | cons c cs ih =>
    intro i run hno
    have hc : (c run.chainedReq).State ≠ ReqState.STOPPED := by
      have := hno 1 (le_refl 1) (by simp)
      rwa [runHandlers_cons, runHandlers_zero] at this
    have hrec := ih (i + 1) ⟨i + 1, c run.chainedReq, run.invoked ++ [i]⟩
      (by
        intro j hj1 hj2
        have := hno (j + 1) (by omega) (by simpa using hj2)
        rwa [runHandlers_cons] at this)
    simp only [HandlerChain.serveLoop, hc, if_false]
    rw [hrec, List.length_cons, runHandlers_cons]
    cases cs with
    | nil => simp [List.range']
    | cons d ds => simp [List.range', Nat.add_assoc, Nat.add_comm 1]

/-- A chain built by `Add` calls on the empty chain holds the handlers added,
in order, with the counter at zero. -/
theorem foldl_Add_eq (hs : List (ChainedHandler W)) (h : HandlerChain W) :
    hs.foldl HandlerChain.Add h = ⟨h.numExc, h.handlers ++ hs⟩ := by
  induction hs generalizing h with
  | nil => simp
  | cons c cs ih => simp [ih, HandlerChain.Add]

end Chain

/-- C2: in a chain whose handler number `k` (counted from 1) is the first to
leave the shared state `STOPPED`, `ServeHTTP` ends with `numExc = k`, has called
exactly the handlers `1..k`, each once and in registration order, and leaves
the record as those `k` handlers made it (with the state then set to
`FINNISHED`); the handlers after `k` are not called. -/
theorem chain_stops_at_first_stopped {W : Type} (h : HandlerChain W) (w : W) (r : Request)
    (k : Nat) (hk1 : 1 ≤ k) (hk2 : k ≤ h.handlers.length)
    (hbefore : ∀ j, 1 ≤ j → j < k →
      (runHandlers h.handlers j ⟨w, r, ReqState.READY⟩).State ≠ ReqState.STOPPED)
    (hstop : (runHandlers h.handlers k ⟨w, r, ReqState.READY⟩).State = ReqState.STOPPED) :
    (h.ServeHTTP w r).1.numExc = k ∧
    (h.ServeHTTP w r).2.2 = List.range k ∧
    (h.ServeHTTP w r).2.1
      = { runHandlers h.handlers k ⟨w, r, ReqState.READY⟩ with State := ReqState.FINNISHED } := by
  have hloop := serveLoop_stopped h.handlers 0 ⟨h.numExc, ⟨w, r, ReqState.READY⟩, []⟩ k
    hk1 hk2 hbefore hstop
  simp only [HandlerChain.ServeHTTP, hloop]
  simp [List.range_eq_range']

/-- Witness for C2: the chain of `TestStoppedStateChainedHandlers`, whose third
handler is the first to stop. -/
theorem chain_stops_at_first_stopped_witness :
    ((⟨0, [MockHandlerReady, MockHandlerActive, MockHandlerStopped, MockHandlerActive,
        MockHandlerActive]⟩ : HandlerChain Unit).ServeHTTP ()
        (createGetRequest "/testblog".toList)).1.numExc = 3 ∧
    ((⟨0, [MockHandlerReady, MockHandlerActive, MockHandlerStopped, MockHandlerActive,
        MockHandlerActive]⟩ : HandlerChain Unit).ServeHTTP ()
        (createGetRequest "/testblog".toList)).2.2 = [0, 1, 2] :=
  have h := chain_stops_at_first_stopped
    (⟨0, [MockHandlerReady, MockHandlerActive, MockHandlerStopped, MockHandlerActive,
        MockHandlerActive]⟩ : HandlerChain Unit) () (createGetRequest "/testblog".toList) 3
    (by decide) (by decide)
    (by
      intro j h1 h2
      interval_cases j <;> simp [runHandlers, MockHandlerReady, MockHandlerActive])
    (by simp [runHandlers, MockHandlerStopped])
  ⟨h.1, h.2.1⟩

/-- C3: a chain built by `N` calls of `Add` on the empty chain, none of whose
handlers leaves the shared state `STOPPED`, calls all `N` handlers, each once
and in the order added, and ends with `numExc = N`. -/
theorem chain_runs_all_handlers {W : Type} (hs : List (ChainedHandler W)) (w : W) (r : Request)
    (hno : ∀ j, 1 ≤ j → j ≤ hs.length →
      (runHandlers hs j ⟨w, r, ReqState.READY⟩).State ≠ ReqState.STOPPED) :
    ((hs.foldl HandlerChain.Add (HandlerChain.empty W)).ServeHTTP w r).1.numExc = hs.length ∧
    ((hs.foldl HandlerChain.Add (HandlerChain.empty W)).ServeHTTP w r).2.2
      = List.range hs.length ∧
    ((hs.foldl HandlerChain.Add (HandlerChain.empty W)).ServeHTTP w r).2.1
      = { runHandlers hs hs.length ⟨w, r, ReqState.READY⟩ with State := ReqState.FINNISHED } := by
  have hloop := serveLoop_exhausted hs 0 ⟨0, ⟨w, r, ReqState.READY⟩, []⟩ hno
  rw [foldl_Add_eq]
  simp only [HandlerChain.ServeHTTP, HandlerChain.empty, List.nil_append, hloop]
  refine ⟨?_, ?_, ?_⟩
  · cases hs <;> simp
  · simp [List.range_eq_range']
  · trivial

/-- Witness for C3: the six handlers of `TestRequestOn6ChainedHandlers`. -/
theorem chain_runs_all_handlers_witness :
    (((List.replicate 6 MockHandlerActive).foldl HandlerChain.Add
        (HandlerChain.empty Unit)).ServeHTTP () (createGetRequest "/testblog".toList)).1.numExc
      = 6 ∧
    (((List.replicate 6 MockHandlerActive).foldl HandlerChain.Add
        (HandlerChain.empty Unit)).ServeHTTP () (createGetRequest "/testblog".toList)).2.2
      = [0, 1, 2, 3, 4, 5] :=
  have h := chain_runs_all_handlers (List.replicate 6 MockHandlerActive) ()
    (createGetRequest "/testblog".toList)
    (by
      intro j h1 h2
      simp only [List.length_replicate] at h2
      interval_cases j <;> simp [runHandlers, MockHandlerActive, List.replicate])
  ⟨h.1, h.2.1⟩

/-- C4: whatever the handlers of a chain do, the empty chain included, the
state of the record is `FINNISHED` when `ServeHTTP` returns. -/
theorem chain_always_finishes {W : Type} (h : HandlerChain W) (w : W) (r : Request) :
    (h.ServeHTTP w r).2.1.State = ReqState.FINNISHED := by
  rfl

/-! ## Route lookup -/

section Lookup

variable {H : Type}

/-- A `match` call that returns `false` has changed neither route nor request. -/
theorem matchReq_false_unchanged (r : Route H) (req : Request) (r1 : Route H) (req1 : Request)
    (h : r.matchReq req = some (false, r1, req1)) : r1 = r ∧ req1 = req := by
  unfold Route.matchReq at h
  split at h
  · simp at h
  · split at h
    · simp only [Option.some.injEq, Prod.mk.injEq, true_and] at h
      exact ⟨h.1.symm, h.2.symm⟩
    · split at h
      · simp only [Option.some.injEq, Prod.mk.injEq, true_and] at h
        exact ⟨h.1.symm, h.2.symm⟩
      · split at h
        · simp only [Option.some.injEq, Prod.mk.injEq, true_and] at h
          exact ⟨h.1.symm, h.2.symm⟩
        · simp at h

/-- A route whose pattern is compiled answers every `match` call. -/
theorem matchReq_isSome (r : Route H) (req : Request) (h : r.urlMatcher.isSome) :
    ∃ res, r.matchReq req = some res := by
  unfold Route.matchReq
  cases hm : r.urlMatcher with
  | none => simp [hm] at h
  | some re =>
    simp only
    split
    · exact ⟨_, rfl⟩
    · split
      · exact ⟨_, rfl⟩
      · split
        · exact ⟨_, rfl⟩
        · exact ⟨_, rfl⟩

/-- The loop of `findRoute` returns the first of the remaining routes whose
`match` succeeds, and `nil` when none does. -/
theorem findRouteLoop_spec (vs : List (Route H)) :
    ∀ (i : Nat) (seen : List (Route H)) (req : Request),
      (∀ r ∈ vs, r.urlMatcher.isSome) →
      ∃ res rs req1, findRouteLoop vs i seen req = some (res, rs, req1) ∧
        ((res = none ∧ ∀ r ∈ vs, r.matchResult req = some false) ∨
         (∃ k r, res = some (i + k) ∧ vs[k]? = some r ∧ r.matchResult req = some true ∧
            ∀ j, j < k → ∀ r1, vs[j]? = some r1 → r1.matchResult req = some false)) := by
  induction vs with
  | nil =>
    intro i seen req _
    exact ⟨none, seen, req, rfl, Or.inl ⟨rfl, by simp⟩⟩
  | cons v vs ih =>
    intro i seen req hpath
    obtain ⟨res, hres⟩ := matchReq_isSome v req (hpath v (by simp))
    obtain ⟨b, v1, req1⟩ := res
    cases b with
    | true =>
      refine ⟨some i, seen ++ v1 :: vs, req1, by simp [findRouteLoop, hres], Or.inr ?_⟩
      refine ⟨0, v, rfl, by simp, by simp [Route.matchResult, hres], ?_⟩
      intro j hj
      omega
    | false =>
      obtain ⟨rfl, rfl⟩ := matchReq_false_unchanged v req v1 req1 hres
      obtain ⟨res, rs, req2, hloop, hspec⟩ := ih (i + 1) (seen ++ [v1]) req1
        (fun r hr => hpath r (by simp [hr]))
      refine ⟨res, rs, req2, by simp [findRouteLoop, hres, hloop], ?_⟩
      have hv : v1.matchResult req1 = some false := by simp [Route.matchResult, hres]
      rcases hspec with ⟨hnone, hall⟩ | ⟨k, r, hk, hget, htrue, hfalse⟩
      · left
        refine ⟨hnone, ?_⟩
        intro r hr
        rcases List.mem_cons.mp hr with rfl | hr
        · exact hv
        · exact hall r hr
      · right
        refine ⟨k + 1, r, by rw [hk]; congr 1; omega, by simpa using hget, htrue, ?_⟩
        intro j hj r1 hr1
        cases j with
        | zero =>
          simp only [List.getElem?_cons_zero, Option.some.injEq] at hr1
          subst hr1
          exact hv
        | succ j =>
          simp only [List.getElem?_cons_succ] at hr1
          exact hfalse j (by omega) r1 hr1

end Lookup

/-- C1: on a router all of whose routes have a compiled pattern, `findRoute`
returns a result; it returns the route at position `i` exactly when that route
is the earliest registered one whose `match` succeeds on the request (whether
or not a later route matches as well), and it returns `nil` exactly when no
registered route matches. -/
theorem findRoute_first_match {H : Type} (wr : WebRouter H) (req : Request)
    (hpath : ∀ r ∈ wr.routes, r.urlMatcher.isSome) :
    ∃ res wr1 req1, wr.findRoute req = some (res, wr1, req1) ∧
      (∀ i, res = some i ↔
        ((∃ r, wr.routes[i]? = some r ∧ r.matchResult req = some true) ∧
          ∀ j, j < i → ∀ r1, wr.routes[j]? = some r1 → r1.matchResult req = some false)) ∧
      (res = none ↔ ∀ r ∈ wr.routes, r.matchResult req = some false) := by
  obtain ⟨res, rs, req1, hloop, hspec⟩ := findRouteLoop_spec wr.routes 0 [] req hpath
  refine ⟨res, ⟨rs⟩, req1, by simp [WebRouter.findRoute, hloop], ?_, ?_⟩
  · intro i
    constructor
    · intro hi
      rcases hspec with ⟨hnone, _⟩ | ⟨k, r, hk, hget, htrue, hfalse⟩
      · rw [hnone] at hi
        cases hi
      · rw [hk] at hi
        simp only [Nat.zero_add, Option.some.injEq] at hi
        subst hi
        exact ⟨⟨r, hget, htrue⟩, hfalse⟩
    · rintro ⟨⟨r, hget, htrue⟩, hfalse⟩
      rcases hspec with ⟨_, hall⟩ | ⟨k, r2, hk, hget2, htrue2, hfalse2⟩
      · have := hall r (List.getElem?_mem hget)
        rw [htrue] at this
        cases this
      · rw [hk]
        simp only [Nat.zero_add, Option.some.injEq]
        rcases Nat.lt_trichotomy k i with hlt | heq | hgt
        · have := hfalse k hlt r2 hget2
          rw [htrue2] at this
          cases this
        · exact heq
        · have := hfalse2 i hgt r hget
          rw [htrue] at this
          cases this
  · constructor
    · intro hnone
      rcases hspec with ⟨_, hall⟩ | ⟨k, r, hk, _, _, _⟩
      · exact hall
      · rw [hk] at hnone
        cases hnone
    · intro hall
      rcases hspec with ⟨hnone, _⟩ | ⟨k, r, _, hget, htrue, _⟩
      · exact hnone
      · have := hall r (List.getElem?_mem hget)
        rw [htrue] at this
        cases this

/-- Witness for C1: two routes that both match `/a/21`, the broader one
registered first. -/
theorem findRoute_first_match_witness :
    (∀ r ∈ (((NewWebRouter Unit).AddRoute (pathRoute Unit "/a/\x7bx\x7d".toList)).AddRoute
        (pathRoute Unit "/a/\x7bid:\\d*\x7d".toList)).routes, r.urlMatcher.isSome) ∧
    ∃ res wr1 req1,
      (((NewWebRouter Unit).AddRoute (pathRoute Unit "/a/\x7bx\x7d".toList)).AddRoute
        (pathRoute Unit "/a/\x7bid:\\d*\x7d".toList)).findRoute (createGetRequest "/a/21".toList)
        = some (res, wr1, req1) ∧
      (∀ i, res = some i ↔
        ((∃ r, (((NewWebRouter Unit).AddRoute (pathRoute Unit "/a/\x7bx\x7d".toList)).AddRoute
            (pathRoute Unit "/a/\x7bid:\\d*\x7d".toList)).routes[i]? = some r ∧
            r.matchResult (createGetRequest "/a/21".toList) = some true) ∧
          ∀ j, j < i → ∀ r1,
            (((NewWebRouter Unit).AddRoute (pathRoute Unit "/a/\x7bx\x7d".toList)).AddRoute
              (pathRoute Unit "/a/\x7bid:\\d*\x7d".toList)).routes[j]? = some r1 →
            r1.matchResult (createGetRequest "/a/21".toList) = some false)) ∧
      (res = none ↔
        ∀ r ∈ (((NewWebRouter Unit).AddRoute (pathRoute Unit "/a/\x7bx\x7d".toList)).AddRoute
          (pathRoute Unit "/a/\x7bid:\\d*\x7d".toList)).routes,
          r.matchResult (createGetRequest "/a/21".toList) = some false) :=
  have hpath : ∀ r ∈ (((NewWebRouter Unit).AddRoute (pathRoute Unit "/a/\x7bx\x7d".toList)).AddRoute
        (pathRoute Unit "/a/\x7bid:\\d*\x7d".toList)).routes, r.urlMatcher.isSome := by
    intro r hr
    simp only [WebRouter.AddRoute, NewWebRouter, List.nil_append, List.cons_append,
      List.mem_cons, List.mem_singleton, List.not_mem_nil, or_false] at hr
    rcases hr with rfl | rfl <;> decide
  ⟨hpath, findRoute_first_match _ _ hpath⟩

/-- C10: a route with a non-empty method set answers `false`, and changes
nothing, on every request whose method is not in the set, whatever the path
and the headers are; on a route with an empty method set the answer of `match`
does not depend on the request method. -/
theorem match_respects_method_set {H : Type} (r1 r2 : Route H) (req : Request)
    (hpath : r1.urlMatcher.isSome) (hne : r1.methods ≠ []) (hnot : req.method ∉ r1.methods)
    (hempty : r2.methods = []) :
    r1.matchReq req = some (false, r1, req) ∧
    ∀ m, r2.matchResult { req with method := m } = r2.matchResult req := by
  constructor
  · unfold Route.matchReq
    cases hm : r1.urlMatcher with
    | none => simp [hm] at hpath
    | some re =>
      have hlen : r1.methods.length > 0 := List.length_pos.mpr hne
      have hc : r1.methods.contains req.method = false := by
        simpa using hnot
      simp only [hlen, hc, decide_True, Bool.not_false, Bool.and_self, if_true, ite_self]
  · intro m
    unfold Route.matchResult Route.matchReq
    cases hm : r2.urlMatcher with
    | none => rfl
    | some re =>
      simp only [hempty, List.length_nil, gt_iff_lt, lt_self_iff_false, decide_False,
        Bool.false_and, Bool.false_eq_true, if_false, Route.matchPathPrefix, Route.headersOk,
        Request.headerGet]
      split
      · rfl
      · split
        · rfl
        · rfl

/-- Witness for C10: the `GET` route of `TestCannotFindPostRoute` meets a `POST`
request for its own path, and a route without methods. -/
theorem match_respects_method_set_witness :
    ((pathRoute Unit "/route/articles/".toList).Method "get".toList).urlMatcher.isSome ∧
    ((pathRoute Unit "/route/articles/".toList).Method "get".toList).methods ≠ [] ∧
    (createPostRequest "/route/articles/".toList).method
      ∉ ((pathRoute Unit "/route/articles/".toList).Method "get".toList).methods ∧
    (pathRoute Unit "/route/articles/".toList).methods = [] ∧
    ((pathRoute Unit "/route/articles/".toList).Method "get".toList).matchReq
        (createPostRequest "/route/articles/".toList)
      = some (false, (pathRoute Unit "/route/articles/".toList).Method "get".toList,
          createPostRequest "/route/articles/".toList) ∧
    ∀ m, (pathRoute Unit "/route/articles/".toList).matchResult
        { createPostRequest "/route/articles/".toList with method := m }
      = (pathRoute Unit "/route/articles/".toList).matchResult
        (createPostRequest "/route/articles/".toList) :=
  have h1 : ((pathRoute Unit "/route/articles/".toList).Method "get".toList).urlMatcher.isSome := by
    decide
  have h2 : ((pathRoute Unit "/route/articles/".toList).Method "get".toList).methods ≠ [] := by
    decide
  have h3 : (createPostRequest "/route/articles/".toList).method
      ∉ ((pathRoute Unit "/route/articles/".toList).Method "get".toList).methods := by
    decide
  have h4 : (pathRoute Unit "/route/articles/".toList).methods = [] := by decide
  ⟨h1, h2, h3, h4, match_respects_method_set _ _ _ h1 h2 h3 h4⟩

/-! ## The pattern compiler -/

theorem startsWith_append (v r : Str) : startsWith v (v ++ r) = true := by
  induction v with
  | nil => cases r <;> rfl
  | cons a v ih => simp [startsWith, ih]

theorem replaceFirst_at_head (v r new : Str) : replaceFirst (v ++ r) v new = new ++ r := by
  cases hvr : v ++ r with
  | nil =>
    have hv : v = [] := (List.append_eq_nil.mp hvr).1
    have hr : r = [] := (List.append_eq_nil.mp hvr).2
    subst hv hr
    simp [replaceFirst, startsWith]
  | cons c t =>
    have hs : startsWith v (c :: t) = true := by rw [← hvr]; exact startsWith_append v r
    simp only [replaceFirst, hs, if_true]
    rw [← hvr, List.drop_left]

/-- Text without `{` is passed over by the search for a token. -/
theorem replaceFirst_skip (d : Str) (hd : '{' ∉ d) (v s new : Str) :
    replaceFirst (d ++ s) ('{' :: v) new = d ++ replaceFirst s ('{' :: v) new := by
  induction d with
  | nil => rfl
  | cons c d ih =>
    have hc : ('{' == c) = false := by
      simp only [List.mem_cons, not_or] at hd
      simpa using hd.1
    have hd2 : '{' ∉ d := fun h => hd (List.mem_cons_of_mem _ h)
    have ih2 := ih hd2
    simp only [List.cons_append, replaceFirst, startsWith, hc, Bool.false_and,
      Bool.false_eq_true, if_false]
    exact congrArg (c :: ·) ih2

theorem splitAux_chars (sep : Char) (s : Str) :
    ∀ (cur : Str) (f : Str), f ∈ splitAux sep cur s → ∀ c ∈ f, c ∈ cur ∨ c ∈ s := by
  induction s with
  | nil =>
    intro cur f hf c hc
    simp only [splitAux, List.mem_singleton] at hf
    subst hf
    exact Or.inl hc
  | cons a s ih =>
    intro cur f hf c hc
    simp only [splitAux] at hf
    split at hf
    · rcases List.mem_cons.mp hf with rfl | hf
      · exact Or.inl hc
      · rcases ih [] f hf c hc with h | h
        · simp at h
        · exact Or.inr (List.mem_cons_of_mem _ h)
    · rcases ih (cur ++ [a]) f hf c hc with h | h
      · rcases List.mem_append.mp h with h | h
        · exact Or.inl h
        · simp only [List.mem_singleton] at h
          subst h
          exact Or.inr (List.mem_cons_self _ _)
      · exact Or.inr (List.mem_cons_of_mem _ h)

/-- The group built for a token holds no `{` when the token holds none after
its first character. -/
theorem namedPattern_no_brace (v : Str) (hv : '{' ∉ v.tail) : '{' ∉ namedPattern v := by
  have hfield : ∀ f ∈ split ((v.drop 1).take (v.length - 2)) ':', '{' ∉ f := by
    intro f hf hmem
    rcases splitAux_chars ':' _ [] f hf '{' hmem with h | h
    · simp at h
    · have h2 := List.mem_of_mem_take h
      rw [List.drop_one] at h2
      exact hv h2
  have hhead : '{' ∉ (split ((v.drop 1).take (v.length - 2)) ':').headD [] := by
    cases hsp : split ((v.drop 1).take (v.length - 2)) ':' with
    | nil => simp
    | cons f fs =>
      simp only [List.headD_cons]
      exact hfield f (by rw [hsp]; exact List.mem_cons_self _ _)
  have hsnd : '{' ∉ (split ((v.drop 1).take (v.length - 2)) ':').getD 1 [] := by
    rw [List.getD_eq_getElem?_getD]
    cases hget : (split ((v.drop 1).take (v.length - 2)) ':')[1]? with
    | none => simp
    | some f =>
      simp only [Option.getD_some]
      exact hfield f (List.getElem?_mem hget)
  unfold namedPattern
  simp only [List.mem_append, not_or]
  refine ⟨⟨⟨⟨by decide, hhead⟩, by decide⟩, ?_⟩, by decide⟩
  split
  · exact hsnd
  · decide

/-- The loop of `buildPathPattern` agrees with positional rewriting, from any
point of the scan on: `d` is the text already rewritten, `cur` the token being
read and `s` the text still ahead. -/
theorem replaceVars_positional (s : Str) :
    ∀ (cur : Option Str) (d : Str), '{' ∉ d →
      (∀ acc, cur = some acc → ∃ a, acc = '{' :: a) →
      (∀ v ∈ scanVars cur s, '{' ∉ v.tail) →
      replaceVars (d ++ (cur.getD [] ++ s)) (scanVars cur s) = d ++ positionalRewrite cur s := by
  induction s with
  | nil =>
    intro cur d _ _ _
    cases cur <;> simp [scanVars, replaceVars, positionalRewrite]
  | cons c t ih =>
    intro cur d hd hcur hgood
    cases cur with
    | none =>
      by_cases hc : c = '{'
      · subst hc
        have := ih (some ['{']) d hd (fun acc h => ⟨[], by simpa using h.symm⟩)
          (by simpa [scanVars] using hgood)
        simpa [scanVars, positionalRewrite] using this
      · have hd2 : '{' ∉ d ++ [c] := by
          simp only [List.mem_append, List.mem_singleton, not_or]
          exact ⟨hd, fun h => hc h.symm⟩
        have := ih none (d ++ [c]) hd2 (by simp) (by simpa [scanVars, hc] using hgood)
        simpa [scanVars, positionalRewrite, hc] using this
    | some acc =>
      obtain ⟨a, rfl⟩ := hcur acc rfl
      by_cases hc : c = '}'
      · subst hc
        have hscan : scanVars (some ('{' :: a)) ('}' :: t)
            = ('{' :: a ++ ['}']) :: scanVars none t := by simp [scanVars]
        rw [hscan] at hgood ⊢
        have hv : '{' ∉ ('{' :: a ++ ['}']).tail := hgood _ (List.mem_cons_self _ _)
        have hnp : '{' ∉ d ++ namedPattern ('{' :: a ++ ['}']) := by
          simp only [List.mem_append, not_or]
          exact ⟨hd, namedPattern_no_brace _ hv⟩
        have hrec := ih none (d ++ namedPattern ('{' :: a ++ ['}'])) hnp (by simp)
          (fun v hv2 => hgood v (List.mem_cons_of_mem _ hv2))
        have hstep : replaceFirst (d ++ ((some ('{' :: a)).getD [] ++ '}' :: t))
            ('{' :: a ++ ['}']) (namedPattern ('{' :: a ++ ['}']))
            = d ++ namedPattern ('{' :: a ++ ['}']) ++ t := by
          have h1 : (some ('{' :: a)).getD [] ++ '}' :: t = ('{' :: (a ++ ['}'])) ++ t := by
            simp
          rw [h1]
          have h2 : ('{' :: a ++ ['}'] : Str) = '{' :: (a ++ ['}']) := rfl
          rw [h2, replaceFirst_skip d hd, replaceFirst_at_head, List.append_assoc]
        simp only [replaceVars, List.foldl_cons] at hrec ⊢
        rw [hstep]
        simp only [Option.getD_none, List.nil_append] at hrec
        rw [hrec]
        simp [positionalRewrite]
      · have hscan : scanVars (some ('{' :: a)) (c :: t)
            = scanVars (some ('{' :: (a ++ [c]))) t := by simp [scanVars, hc]
        rw [hscan] at hgood ⊢
        have := ih (some ('{' :: (a ++ [c]))) d hd (fun acc h => ⟨a ++ [c], by simpa using h.symm⟩)
          hgood
        simpa [positionalRewrite, hc] using this

theorem token_body (a : Str) :
    (('{' :: a ++ ['}']).drop 1).take (('{' :: a ++ ['}']).length - 2) = a := by
  have h : ('{' :: a ++ ['}']).length - 2 = a.length := by simp
  rw [h]
  simp

theorem splitAux_no_sep (sep : Char) (s : Str) :
    ∀ cur : Str, sep ∉ s → splitAux sep cur s = [cur ++ s] := by
  induction s with
  | nil => intro cur _; simp [splitAux]
  | cons a s ih =>
    intro cur hs
    simp only [List.mem_cons, not_or] at hs
    have ha : a ≠ sep := fun h => hs.1 h.symm
    simp [splitAux, ha, ih (cur ++ [a]) hs.2]

theorem splitAux_first_sep (sep : Char) (n r : Str) :
    ∀ cur : Str, sep ∉ n → splitAux sep cur (n ++ sep :: r) = (cur ++ n) :: splitAux sep [] r := by
  induction n with
  | nil => intro cur _; simp [splitAux]
  | cons a n ih =>
    intro cur hn
    simp only [List.mem_cons, not_or] at hn
    have ha : a ≠ sep := fun h => hn.1 h.symm
    simp [splitAux, ha, ih (cur ++ [a]) hn.2]

theorem splitAux_length_pos (sep : Char) (s : Str) :
    ∀ cur : Str, 1 ≤ (splitAux sep cur s).length := by
  induction s with
  | nil => intro cur; simp [splitAux]
  | cons a s ih =>
    intro cur
    simp only [splitAux]
    split
    · simp
    · exact ih _

theorem splitAux_length_of_mem (sep : Char) (s : Str) :
    ∀ cur : Str, sep ∈ s → 2 ≤ (splitAux sep cur s).length := by
  induction s with
  | nil => intro cur h; simp at h
  | cons a s ih =>
    intro cur hs
    by_cases ha : a = sep
    · have : 1 ≤ (splitAux sep [] s).length := splitAux_length_pos sep s []
      simp only [splitAux, ha, if_true, List.length_cons]
      omega
    · have hs2 : sep ∈ s := by
        rcases List.mem_cons.mp hs with h | h
        · exact absurd h.symm ha
        · exact h
      simp only [splitAux, ha, if_false]
      exact ih _ hs2

/-- The group built for a token `{name}` without a colon: the default `\w*`. -/
theorem namedPattern_plain (name : Str) (hn : ':' ∉ name) :
    namedPattern ('{' :: name ++ ['}'])
      = "(?P<".toList ++ name ++ ">".toList ++ REGEX_URL_VARIABLE_DEF_PATTERN ++ ")".toList := by
  unfold namedPattern
  rw [token_body]
  simp [split, splitAux_no_sep ':' name [] hn]

/-- The group built for a token `{name:regex}` whose regex holds no colon: the
regex, as written. -/
theorem namedPattern_regex (name regex : Str) (hn : ':' ∉ name) (hr : ':' ∉ regex) :
    namedPattern ('{' :: (name ++ ':' :: regex) ++ ['}'])
      = "(?P<".toList ++ name ++ ">".toList ++ regex ++ ")".toList := by
  unfold namedPattern
  rw [token_body]
  simp [split, splitAux_first_sep ':' name regex [] hn, splitAux_no_sep ':' regex [] hr]

/-- The group built for a token `{name:regex}` whose regex holds a colon: the
regex is dropped and the default `\w*` is used. -/
theorem namedPattern_regex_with_colon (name regex : Str) (hn : ':' ∉ name) (hr : ':' ∈ regex) :
    namedPattern ('{' :: (name ++ ':' :: regex) ++ ['}'])
      = "(?P<".toList ++ name ++ ">".toList ++ REGEX_URL_VARIABLE_DEF_PATTERN ++ ")".toList := by
  unfold namedPattern
  rw [token_body]
  have hlen := splitAux_length_of_mem ':' regex [] hr
  have hne : ¬ (split (name ++ ':' :: regex) ':').length = 2 := by
    simp only [split, splitAux_first_sep ':' name regex [] hn, List.length_cons]
    omega
  simp only [hne, if_false]
  simp [split, splitAux_first_sep ':' name regex [] hn]

theorem scanVars_none_skip (pre : Str) (hpre : '{' ∉ pre) (s : Str) :
    scanVars none (pre ++ s) = scanVars none s := by
  induction pre with
  | nil => rfl
  | cons c pre ih =>
    simp only [List.mem_cons, not_or] at hpre
    have hc : c ≠ '{' := fun h => hpre.1 h.symm
    simp [scanVars, hc, ih hpre.2]

theorem scanVars_some_close (a : Str) (ha : '}' ∉ a) :
    ∀ (acc s : Str), scanVars (some acc) (a ++ '}' :: s) = (acc ++ a ++ ['}']) :: scanVars none s := by
  induction a with
  | nil => intro acc s; simp [scanVars]
  | cons c a ih =>
    intro acc s
    simp only [List.mem_cons, not_or] at ha
    have hc : c ≠ '}' := fun h => ha.1 h.symm
    simp [scanVars, hc, ih ha.2]

/-- A template with a single token: the text before and after the token is
kept, and the token is replaced by its group. -/
theorem buildPathPattern_single_token (pre a post : Str) (hpre : '{' ∉ pre) (ha : '}' ∉ a)
    (hpost : findAllVars post = []) :
    findAllVars (pre ++ '{' :: a ++ '}' :: post) = ['{' :: a ++ ['}']] ∧
    buildPathPattern (pre ++ '{' :: a ++ '}' :: post)
      = REGEX_START_OF_STRING ++ (pre ++ namedPattern ('{' :: a ++ ['}']) ++ post)
          ++ REGEX_END_OF_STRING := by
  have hvars : findAllVars (pre ++ '{' :: a ++ '}' :: post) = ['{' :: a ++ ['}']] := by
    unfold findAllVars at hpost ⊢
    have h1 : pre ++ '{' :: a ++ '}' :: post = pre ++ ('{' :: (a ++ '}' :: post)) := by simp
    rw [h1, scanVars_none_skip pre hpre]
    simp [scanVars, scanVars_some_close a ha, hpost]
  refine ⟨hvars, ?_⟩
  unfold buildPathPattern
  rw [hvars]
  have h2 : pre ++ '{' :: a ++ '}' :: post = pre ++ (('{' :: (a ++ ['}'])) ++ post) := by simp
  have h3 : ('{' :: a ++ ['}'] : Str) = '{' :: (a ++ ['}']) := rfl
  simp only [replaceVars, List.foldl_cons, List.foldl_nil]
  rw [h2, h3, replaceFirst_skip pre hpre, replaceFirst_at_head]
  simp

/-- C5: the template `http://example.url/{id:\d*}/` of the source comment gets
the pattern `\Ahttp://example.url/(?P<id>\d*)/\z`; but on the template
`/u/{name:[[:alpha:]]+}`, whose single token carries a regular expression that
itself contains colons, `buildPathPattern` builds the group `(?P<name>\w*)`:
the expression after the colon is dropped and the default `\w*` takes its
place. -/
theorem buildPathPattern_regex_with_colon :
    buildPathPattern "http://example.url/\x7bid:\\d*\x7d/".toList
      = "\\Ahttp://example.url/(?P<id>\\d*)/\\z".toList ∧
    buildPathPattern "/u/\x7bname:[[:alpha:]]+\x7d".toList
      = "\\A/u/(?P<name>\\w*)\\z".toList ∧
    buildPathPattern "/u/\x7bname:[[:alpha:]]+\x7d".toList
      ≠ "\\A/u/(?P<name>[[:alpha:]]+)\\z".toList := by
  decide

/-- C6, as stated, fails: on the template `{a:[{}}{)}])` the second token `{)}`
first occurs inside the group just built for the first token, so the loop
rewrites that spot and leaves the token itself in place. -/
theorem buildPathPattern_not_positional :
    buildPathPattern "\x7ba:[\x7b\x7d\x7d\x7b)\x7d])".toList
      = "\\A(?P<a>[(?P<)>\\w*)\x7b)\x7d])\\z".toList ∧
    positionalPattern "\x7ba:[\x7b\x7d\x7d\x7b)\x7d])".toList
      = "\\A(?P<a>[\x7b)\x7d(?P<)>\\w*)])\\z".toList ∧
    buildPathPattern "\x7ba:[\x7b\x7d\x7d\x7b)\x7d])".toList
      ≠ positionalPattern "\x7ba:[\x7b\x7d\x7d\x7b)\x7d])".toList := by
  decide

/-- A template none of whose tokens holds a `{` after its opening one is
rewritten token by token, each in its place. -/
theorem plain_tokens_rewritten_in_place (rootPath : Str)
    (hgood : ∀ v ∈ findAllVars rootPath, '{' ∉ v.tail) :
    buildPathPattern rootPath = positionalPattern rootPath := by
  have h := replaceVars_positional rootPath none [] (by simp) (by simp) hgood
  simp only [Option.getD_none, List.nil_append] at h
  simp only [buildPathPattern, positionalPattern, findAllVars, h]

theorem sealed_cons (c : Char) (t : Str) :
    Sealed (c :: t) ↔ (c = '{' → ∃ x u, t = x ++ ')' :: u ∧ ':' ∉ x ∧ '}' ∉ x) ∧ Sealed t :=
  Iff.rfl

theorem sealed_append (d e : Str) (hd : Sealed d) (he : Sealed e) : Sealed (d ++ e) := by
  induction d with
  | nil => exact he
  | cons c d ih =>
    obtain ⟨hc, hd2⟩ := (sealed_cons c d).mp hd
    rw [List.cons_append, sealed_cons]
    refine ⟨?_, ih hd2⟩
    intro h
    obtain ⟨x, u, rfl, hx1, hx2⟩ := hc h
    exact ⟨x, u ++ e, by simp, hx1, hx2⟩

theorem sealed_of_no_brace (d : Str) (hd : '{' ∉ d) : Sealed d := by
  induction d with
  | nil => trivial
  | cons c d ih =>
    simp only [List.mem_cons, not_or] at hd
    exact (sealed_cons c d).mpr ⟨fun h => absurd h.symm hd.1, ih hd.2⟩

theorem sealed_before_paren (p : Str) (h1 : ':' ∉ p) (h2 : '}' ∉ p) : Sealed (p ++ [')']) := by
  induction p with
  | nil => exact (sealed_cons _ _).mpr ⟨fun h => absurd h (by decide), trivial⟩
  | cons c p ih =>
    simp only [List.mem_cons, not_or] at h1 h2
    exact (sealed_cons _ _).mpr ⟨fun _ => ⟨p, [], rfl, h1.2, h2.2⟩, ih h1.2 h2.2⟩

theorem splitAux_field_no_sep (sep : Char) (s : Str) :
    ∀ (cur : Str), sep ∉ cur → ∀ f ∈ splitAux sep cur s, sep ∉ f := by
  induction s with
  | nil =>
    intro cur hcur f hf
    simp only [splitAux, List.mem_singleton] at hf
    subst hf
    exact hcur
  | cons a s ih =>
    intro cur hcur f hf
    simp only [splitAux] at hf
    split at hf
    · rcases List.mem_cons.mp hf with rfl | hf
      · exact hcur
      · exact ih [] (by simp) f hf
    · rename_i hne
      refine ih (cur ++ [a]) ?_ f hf
      simp only [List.mem_append, List.mem_singleton, not_or]
      exact ⟨hcur, fun h => hne h.symm⟩

theorem splitAux_head_mem (sep : Char) (s : Str) :
    ∀ (cur : Str), ∀ c ∈ cur, c ∈ (splitAux sep cur s).headD [] := by
  induction s with
  | nil => intro cur c hc; simpa [splitAux] using hc
  | cons a s ih =>
    intro cur c hc
    simp only [splitAux]
    split
    · simpa using hc
    · exact ih (cur ++ [a]) c (List.mem_append_left _ hc)

/-- The group built for a token is sealed: it holds no `:` and no `}`, and it
ends with a `)`. -/
theorem sealed_namedPattern (a : Str) (hbody : '}' ∉ a) :
    Sealed (namedPattern ('{' :: a ++ ['}'])) := by
  have hsep : ∀ f ∈ split a ':', ':' ∉ f := splitAux_field_no_sep ':' a [] (by simp)
  have hbr : ∀ f ∈ split a ':', '}' ∉ f := by
    intro f hf hc
    rcases splitAux_chars ':' a [] f hf '}' hc with h2 | h2
    · simp at h2
    · exact hbody h2
  have hhead : (split a ':').headD [] = [] ∨ (split a ':').headD [] ∈ split a ':' := by
    cases hsp : split a ':' with
    | nil => exact Or.inl rfl
    | cons f fs => exact Or.inr (by simp)
  have hsnd : (split a ':').getD 1 [] = [] ∨ (split a ':').getD 1 [] ∈ split a ':' := by
    rw [List.getD_eq_getElem?_getD]
    cases hget : (split a ':')[1]? with
    | none => exact Or.inl rfl
    | some f => exact Or.inr (by simpa using List.getElem?_mem hget)
  have hname : ':' ∉ (split a ':').headD [] ∧ '}' ∉ (split a ':').headD [] := by
    rcases hhead with h | h
    · rw [h]; simp
    · exact ⟨hsep _ h, hbr _ h⟩
  have hpat : ':' ∉ (if (split a ':').length = 2 then (split a ':').getD 1 []
        else REGEX_URL_VARIABLE_DEF_PATTERN) ∧
      '}' ∉ (if (split a ':').length = 2 then (split a ':').getD 1 []
        else REGEX_URL_VARIABLE_DEF_PATTERN) := by
    split
    · rcases hsnd with h | h
      · rw [h]; simp
      · exact ⟨hsep _ h, hbr _ h⟩
    · exact ⟨by decide, by decide⟩
  unfold namedPattern
  rw [token_body]
  show Sealed (_ ++ [')'])
  apply sealed_before_paren
  · simp only [List.mem_append, not_or]
    exact ⟨⟨⟨by decide, hname.1⟩, by decide⟩, hpat.1⟩
  · simp only [List.mem_append, not_or]
    exact ⟨⟨⟨by decide, hname.2⟩, by decide⟩, hpat.2⟩

/-- A token whose name holds no `)` does not occur where a `{` of sealed text
stands. -/
theorem startsWith_sealed (x : Str) :
    ∀ (body cur rest : Str), ':' ∉ x → '}' ∉ x →
      ')' ∉ (splitAux ':' cur body).headD [] →
      startsWith (body ++ ['}']) (x ++ ')' :: rest) = false := by
  induction x with
  | nil =>
    intro body cur rest _ _ hname
    cases body with
    | nil => simp [startsWith]
    | cons b bs =>
      have hb : b ≠ ')' := by
        rintro rfl
        apply hname
        have h1 : splitAux ':' cur (')' :: bs) = splitAux ':' (cur ++ [')']) bs := by
          simp [splitAux]
        rw [h1]
        exact splitAux_head_mem ':' bs _ _ (by simp)
      simp [startsWith, hb]
  | cons y xs ih =>
    intro body cur rest h1 h2 hname
    simp only [List.mem_cons, not_or] at h1 h2
    cases body with
    | nil =>
      have : ('}' == y) = false := by simpa using h2.1
      simp [startsWith, this]
    | cons b bs =>
      by_cases hby : b = y
      · subst hby
        have hsp : splitAux ':' cur (b :: bs) = splitAux ':' (cur ++ [b]) bs := by
          have : b ≠ ':' := fun h => h1.1 h.symm
          simp [splitAux, this]
        rw [hsp] at hname
        have := ih bs (cur ++ [b]) rest h1.2 h2.2 hname
        simp [startsWith, this]
      · simp [startsWith, hby]

theorem replaceFirst_skip_sealed (d : Str) (hd : Sealed d) (a s new : Str)
    (hname : ')' ∉ tokenName ('{' :: a ++ ['}'])) :
    replaceFirst (d ++ s) ('{' :: (a ++ ['}'])) new
      = d ++ replaceFirst s ('{' :: (a ++ ['}'])) new := by
  unfold tokenName at hname
  rw [token_body] at hname
  induction d with
  | nil => rfl
  | cons c d ih =>
    obtain ⟨hc, hd2⟩ := (sealed_cons c d).mp hd
    have hno : startsWith ('{' :: (a ++ ['}'])) (c :: (d ++ s)) = false := by
      by_cases hcb : c = '{'
      · obtain ⟨x, u, rfl, hx1, hx2⟩ := hc hcb
        subst hcb
        have := startsWith_sealed x a [] (u ++ s) hx1 hx2 hname
        simpa [startsWith] using this
      · have : ('{' == c) = false := by simpa using fun h => hcb h.symm
        simp [startsWith, this]
    have ih2 := ih hd2
    simp only [List.cons_append, replaceFirst, List.append_eq, hno, Bool.false_eq_true, if_false]
    exact congrArg (c :: ·) ih2

/-- The loop of `buildPathPattern` agrees with positional rewriting when no
token with a `)` in its name comes after a token whose group holds a `{`: `d` is the
text already rewritten, `cur` the token being read and `s` the text still
ahead; either `d` holds no `{`, or no token still to come has a `)` in its
name. -/
theorem replaceVars_positional_sealed (s : Str) :
    ∀ (cur : Option Str) (d : Str), Sealed d →
      (∀ acc, cur = some acc → ∃ a, acc = '{' :: a ∧ '}' ∉ a) →
      (scanVars cur s).Pairwise (fun u v => '{' ∈ namedPattern u → ')' ∉ tokenName v) →
      ('{' ∉ d ∨ ∀ v ∈ scanVars cur s, ')' ∉ tokenName v) →
      replaceVars (d ++ (cur.getD [] ++ s)) (scanVars cur s) = d ++ positionalRewrite cur s := by
  induction s with
  | nil =>
    intro cur d _ _ _ _
    cases cur <;> simp [scanVars, replaceVars, positionalRewrite]
  | cons c t ih =>
    intro cur d hd hcur hpw hflag
    cases cur with
    | none =>
      by_cases hc : c = '{'
      · subst hc
        have := ih (some ['{']) d hd (fun acc h => ⟨[], by simpa using h.symm, by simp⟩)
          (by simpa [scanVars] using hpw) (by simpa [scanVars] using hflag)
        simpa [scanVars, positionalRewrite] using this
      · have hd2 : Sealed (d ++ [c]) :=
          sealed_append d [c] hd (sealed_of_no_brace [c] (by simpa using fun h => hc h.symm))
        have hflag2 : '{' ∉ d ++ [c] ∨ ∀ v ∈ scanVars none t, ')' ∉ tokenName v := by
          rcases hflag with h | h
          · left
            simp only [List.mem_append, List.mem_singleton, not_or]
            exact ⟨h, fun e => hc e.symm⟩
          · right
            simpa [scanVars, hc] using h
        have := ih none (d ++ [c]) hd2 (by simp) (by simpa [scanVars, hc] using hpw) hflag2
        simpa [scanVars, positionalRewrite, hc] using this
    | some acc =>
      obtain ⟨a, rfl, ha⟩ := hcur acc rfl
      by_cases hc : c = '}'
      · subst hc
        have hscan : scanVars (some ('{' :: a)) ('}' :: t)
            = ('{' :: a ++ ['}']) :: scanVars none t := by simp [scanVars]
        rw [hscan] at hpw hflag ⊢
        obtain ⟨hfirst, hrest⟩ := List.pairwise_cons.mp hpw
        have hnp : Sealed (d ++ namedPattern ('{' :: a ++ ['}'])) :=
          sealed_append _ _ hd (sealed_namedPattern a ha)
        have hflag2 : '{' ∉ d ++ namedPattern ('{' :: a ++ ['}']) ∨
            ∀ v ∈ scanVars none t, ')' ∉ tokenName v := by
          by_cases hb : '{' ∈ namedPattern ('{' :: a ++ ['}'])
          · exact Or.inr (fun v hv => hfirst v hv hb)
          · rcases hflag with h | h
            · left
              simp only [List.mem_append, not_or]
              exact ⟨h, hb⟩
            · exact Or.inr (fun v hv => h v (List.mem_cons_of_mem _ hv))
        have hrec := ih none (d ++ namedPattern ('{' :: a ++ ['}'])) hnp (by simp) hrest hflag2
        have hstep : replaceFirst (d ++ ((some ('{' :: a)).getD [] ++ '}' :: t))
            ('{' :: a ++ ['}']) (namedPattern ('{' :: a ++ ['}']))
            = d ++ namedPattern ('{' :: a ++ ['}']) ++ t := by
          have h1 : (some ('{' :: a)).getD [] ++ '}' :: t = ('{' :: (a ++ ['}'])) ++ t := by
            simp
          rw [h1]
          have h2 : ('{' :: a ++ ['}'] : Str) = '{' :: (a ++ ['}']) := rfl
          rcases hflag with h | h
          · rw [h2, replaceFirst_skip d h, replaceFirst_at_head, List.append_assoc]
          · rw [h2, replaceFirst_skip_sealed d hd a _ _ (h _ (List.mem_cons_self _ _)),
              replaceFirst_at_head, List.append_assoc]
        simp only [replaceVars, List.foldl_cons] at hrec ⊢
        rw [hstep]
        simp only [Option.getD_none, List.nil_append] at hrec
        rw [hrec]
        simp [positionalRewrite]
      · have hscan : scanVars (some ('{' :: a)) (c :: t)
            = scanVars (some ('{' :: (a ++ [c]))) t := by simp [scanVars, hc]
        rw [hscan] at hpw hflag ⊢
        have ha2 : '}' ∉ a ++ [c] := by
          simp only [List.mem_append, List.mem_singleton, not_or]
          exact ⟨ha, fun h => hc h.symm⟩
        have := ih (some ('{' :: (a ++ [c]))) d hd
          (fun acc h => ⟨a ++ [c], by simpa using h.symm, ha2⟩) hpw hflag
        simpa [positionalRewrite, hc] using this

/-- C6, amended: for every path template in which no token with a `)` in its
name comes after a token whose named group holds a `{` (so for every template
without a `)` in a token name, and for every template whose tokens hold no
`{` besides their opening one), the pattern built by `buildPathPattern` is the
template between `\A` and `\z` with every token replaced in place by its named
group, also when the same token text occurs more than once. -/
theorem buildPathPattern_positional (rootPath : Str)
    (hgood : (findAllVars rootPath).Pairwise
      (fun u v => '{' ∈ namedPattern u → ')' ∉ tokenName v)) :
    buildPathPattern rootPath = positionalPattern rootPath := by
  have h := replaceVars_positional_sealed rootPath none [] trivial (by simp) hgood
    (Or.inl (by simp))
  simp only [Option.getD_none, List.nil_append] at h
  simp only [buildPathPattern, positionalPattern, findAllVars, h]

/-- Witness for C6: the token `{id}` occurs twice in the template `/{id}/{id}`;
in the template `[{{a}]{b}` the group of the first token holds a `{`. -/
theorem buildPathPattern_positional_witness :
    (findAllVars "/\x7bid\x7d/\x7bid\x7d".toList).Pairwise
      (fun u v => '{' ∈ namedPattern u → ')' ∉ tokenName v) ∧
    buildPathPattern "/\x7bid\x7d/\x7bid\x7d".toList
      = positionalPattern "/\x7bid\x7d/\x7bid\x7d".toList ∧
    positionalPattern "/\x7bid\x7d/\x7bid\x7d".toList
      = "\\A/(?P<id>\\w*)/(?P<id>\\w*)\\z".toList ∧
    (findAllVars "[\x7b\x7ba\x7d]\x7bb\x7d".toList).Pairwise
      (fun u v => '{' ∈ namedPattern u → ')' ∉ tokenName v) ∧
    buildPathPattern "[\x7b\x7ba\x7d]\x7bb\x7d".toList
      = positionalPattern "[\x7b\x7ba\x7d]\x7bb\x7d".toList ∧
    positionalPattern "[\x7b\x7ba\x7d]\x7bb\x7d".toList
      = "\\A[(?P<\x7ba>\\w*)](?P<b>\\w*)\\z".toList :=
  ⟨by decide, buildPathPattern_positional _ (by decide), by decide,
    by decide, buildPathPattern_positional _ (by decide), by decide⟩

/-! ## Literal path templates under the reference matcher -/

/-- The concatenation of a list of items, first item first. -/
theorem mkSeq_reverse (xs : List Re) : mkSeq xs.reverse = xs.foldr Re.seq Re.empty := by
  simp [mkSeq, List.foldl_reverse]

theorem lexNormal_literal (c : Char) (hc : isMeta c = false) :
    lexNormal c = some ([Tok.atom (Re.char c)], LexMode.normal) := by
  have hmem : c ∉ "\\.+*?()|[]\x7b\x7d^$".toList := by
    simpa [isMeta] using hc
  have h1 : c ≠ '\\' := fun h => hmem (by rw [h]; decide)
  have h2 : c ≠ '(' := fun h => hmem (by rw [h]; decide)
  have h3 : c ≠ ')' := fun h => hmem (by rw [h]; decide)
  have h4 : c ≠ '*' := fun h => hmem (by rw [h]; decide)
  have h5 : c ≠ '+' := fun h => hmem (by rw [h]; decide)
  have h6 : c ≠ '?' := fun h => hmem (by rw [h]; decide)
  have h7 : c ≠ '.' := fun h => hmem (by rw [h]; decide)
  simp [lexNormal, h1, h2, h3, h4, h5, h6, h7, hc]

theorem lexPattern_literal (P : Str) (hP : ∀ c ∈ P, isMeta c = false) (rest : Str) :
    lexPattern LexMode.normal (P ++ rest)
      = (lexPattern LexMode.normal rest).map
          (fun ts => P.map (fun c => Tok.atom (Re.char c)) ++ ts) := by
  induction P with
  | nil => simp
  | cons c P ih =>
    have hc := lexNormal_literal c (hP c (List.mem_cons_self _ _))
    have ih2 := ih (fun x hx => hP x (List.mem_cons_of_mem _ hx))
    simp only [List.cons_append, lexPattern, lexStep, hc, List.append_eq, ih2]
    cases lexPattern LexMode.normal rest <;> rfl

theorem parseToks_atoms (as : List Re) :
    ∀ (items : List Re) (b : Bool) (idx : Nat) (fs : List Frame) (names : List Str)
      (rest : List Tok),
      ∃ b1, parseToks ⟨⟨items, b, idx⟩ :: fs, names⟩ (as.map Tok.atom ++ rest)
        = parseToks ⟨⟨as.reverse ++ items, b1, idx⟩ :: fs, names⟩ rest := by
  induction as with
  | nil => intro items b idx fs names rest; exact ⟨b, rfl⟩
  | cons a as ih =>
    intro items b idx fs names rest
    obtain ⟨b1, h⟩ := ih (a :: items) false idx fs names rest
    refine ⟨b1, ?_⟩
    simp only [List.map_cons, List.cons_append, parseToks, parseStep, List.append_eq]
    rw [h]
    simp

/-- A template of plain characters between the anchors parses to the chain of
its characters. -/
theorem parsePattern_literal (P : Str) (hP : ∀ c ∈ P, isMeta c = false) :
    parsePattern (REGEX_START_OF_STRING ++ P ++ REGEX_END_OF_STRING)
      = some (anchoredLiteral P, []) := by
  have hlex : lexPattern LexMode.normal (REGEX_START_OF_STRING ++ P ++ REGEX_END_OF_STRING)
      = some ((Re.beginText :: P.map Re.char ++ [Re.endText]).map Tok.atom ++ []) := by
    have hend : lexPattern LexMode.normal REGEX_END_OF_STRING = some [Tok.atom Re.endText] := by
      decide
    have hstart : ∀ X, lexPattern LexMode.normal (REGEX_START_OF_STRING ++ X)
        = (lexPattern LexMode.normal X).map (fun ts => Tok.atom Re.beginText :: ts) := by
      intro X
      have h1 : lexStep LexMode.normal '\\' = some ([], LexMode.esc) := by decide
      have h2 : lexStep LexMode.esc 'A' = some ([Tok.atom Re.beginText], LexMode.normal) := by
        decide
      have h3 : REGEX_START_OF_STRING ++ X = '\\' :: 'A' :: X := rfl
      rw [h3]
      simp only [lexPattern, h1, h2]
      cases lexPattern LexMode.normal X <;> rfl
    rw [List.append_assoc, hstart, lexPattern_literal P hP, hend]
    simp [List.map_map, Function.comp]
  obtain ⟨b1, hparse⟩ := parseToks_atoms (Re.beginText :: P.map Re.char ++ [Re.endText])
    [] false 0 [] [] []
  simp only [parsePattern, hlex, hparse]
  simp only [parseToks, List.append_nil, mkSeq_reverse, anchoredLiteral, List.cons_append,
    List.foldr_cons, List.foldr_append, List.foldr_nil]

theorem startsWith_eq_true_iff (p s : Str) : startsWith p s = true ↔ ∃ t, s = p ++ t := by
  induction p generalizing s with
  | nil => simp [startsWith]
  | cons a p ih =>
    cases s with
    | nil => simp [startsWith]
    | cons b s =>
      simp only [startsWith, Bool.and_eq_true, beq_iff_eq, ih, List.cons_append,
        List.cons.injEq]
      constructor
      · rintro ⟨rfl, t, rfl⟩
        exact ⟨t, rfl, rfl⟩
      · rintro ⟨t, rfl, rfl⟩
        exact ⟨rfl, t, rfl⟩

theorem run_chars (P : Str) (tail : Re) :
    ∀ st : MState, ((P.map Re.char).foldr Re.seq tail).run st
      = if startsWith P st.rest then
          tail.run ⟨st.pos + P.length, st.rest.drop P.length, st.caps⟩
        else [] := by
  induction P with
  | nil => intro st; simp [startsWith]
  | cons c P ih =>
    intro st
    obtain ⟨pos, rest, caps⟩ := st
    cases rest with
    | nil => simp [Re.run, startsWith]
    | cons d t =>
      by_cases hd : d = c
      · subst hd
        simp [Re.run, startsWith, ih, Nat.add_assoc, Nat.add_comm 1]
      · have hd2 : (c == d) = false := by simpa using fun h => hd h.symm
        simp [Re.run, startsWith, hd, hd2]

/-- Runs of an anchored literal pattern: one result at the start of the text
when the text is the literal, none otherwise. -/
theorem run_anchored_literal (P : Str) (st : MState) :
    (anchoredLiteral P).run st
      = if st.pos = 0 ∧ st.rest = P then [⟨P.length, [], st.caps⟩] else [] := by
  obtain ⟨pos, rest, caps⟩ := st
  simp only [anchoredLiteral, Re.run]
  by_cases hpos : pos = 0
  · subst hpos
    simp only [if_true, List.flatMap_cons, List.flatMap_nil, List.append_nil, true_and]
    rw [run_chars]
    by_cases hs : startsWith P rest = true
    · obtain ⟨t, rfl⟩ := (startsWith_eq_true_iff P rest).mp hs
      simp only [hs, if_true, List.drop_left, Re.run, Nat.zero_add]
      cases t with
      | nil => simp
      | cons a t => simp
    · have hne : rest ≠ P := by
        intro h
        apply hs
        rw [h]
        simpa using startsWith_append P []
      simp [hs, hne]
  · simp [hpos]

theorem search_anchored_literal_pos (P : Str) (s : Str) :
    ∀ pos, 0 < pos → (anchoredLiteral P).search pos s = none := by
  induction s with
  | nil =>
    intro pos hpos
    have : ¬ pos = 0 := by omega
    simp [Re.search, run_anchored_literal, this]
  | cons c t ih =>
    intro pos hpos
    have : ¬ pos = 0 := by omega
    simp only [Re.search, run_anchored_literal, this, false_and, if_false]
    exact ih (pos + 1) (by omega)

/-- An anchored literal pattern is found in a text exactly when the text is
the literal. -/
theorem search_anchored_literal (P s : Str) :
    ((anchoredLiteral P).search 0 s).isSome = true ↔ s = P := by
  cases s with
  | nil =>
    simp only [Re.search, run_anchored_literal, true_and]
    by_cases h : [] = P
    · simp [h]
    · simp [h]
  | cons c t =>
    simp only [Re.search, run_anchored_literal, true_and]
    by_cases h : c :: t = P
    · simp [h]
    · simp [h, search_anchored_literal_pos P t 1 (by omega)]

/-- A template without a token is handed to the compiler between the anchors,
unchanged. -/
theorem buildPathPattern_no_token (P : Str) (htok : findAllVars P = []) :
    buildPathPattern P = REGEX_START_OF_STRING ++ P ++ REGEX_END_OF_STRING := by
  simp [buildPathPattern, htok, replaceVars]

theorem scanVars_none_no_brace (P : Str) (hP : '{' ∉ P) : scanVars none P = [] := by
  induction P with
  | nil => rfl
  | cons c P ih =>
    simp only [List.mem_cons, not_or] at hP
    have hc : c ≠ '{' := fun h => hP.1 h.symm
    simp [scanVars, hc, ih hP.2]

theorem findAllVars_literal (P : Str) (hP : ∀ c ∈ P, isMeta c = false) : findAllVars P = [] := by
  apply scanVars_none_no_brace
  intro h
  have := hP _ h
  revert this
  decide

/-- C7, as stated, fails: the template `/a.c` holds no token, yet the route
built from it matches the path `/abc`, since `.` keeps its meaning in the
pattern `\A/a.c\z`. -/
theorem literal_path_matches_other_path :
    findAllVars "/a.c".toList = [] ∧
    buildPathPattern "/a.c".toList = "\\A/a.c\\z".toList ∧
    ((pathRoute Unit "/a.c".toList).urlMatcher.map (fun re => re.Match "/abc".toList))
      = some true ∧
    "/abc".toList ≠ "/a.c".toList := by
  decide

/-- C7, amended: for every path template `P` without a token the pattern
handed to the compiler by `Path(P)` is `\A` + `P` + `\z`; and for every template
`Q` made of characters without a meaning in the pattern syntax, `Path(Q)`
succeeds and its pattern matches a request path exactly when the path is `Q`. -/
theorem literal_path_matches_exactly (H : Type) (P Q : Str) (htok : findAllVars P = [])
    (hlit : ∀ c ∈ Q, isMeta c = false) :
    buildPathPattern P = REGEX_START_OF_STRING ++ P ++ REGEX_END_OF_STRING ∧
    ∃ r re, (NewRoute H).Path goCompile Q = some r ∧ r.urlMatcher = some re ∧
      ∀ s, re.Match s = true ↔ s = Q := by
  refine ⟨buildPathPattern_no_token P htok, ?_⟩
  have hpat := buildPathPattern_no_token Q (findAllVars_literal Q hlit)
  have hparse := parsePattern_literal Q hlit
  refine ⟨{ NewRoute H with rootPath := Q, urlMatcher := some (Regexp.ofRe (anchoredLiteral Q) []) },
    Regexp.ofRe (anchoredLiteral Q) [], ?_, rfl, ?_⟩
  · simp only [Route.Path, hpat, goCompile, hparse, Option.map_some']
  · intro s
    simp only [Regexp.Match, Regexp.ofRe, Option.isSome_map']
    exact search_anchored_literal Q s

/-- Witness for C7: the template `/test` of `TestFinder`. -/
theorem literal_path_matches_exactly_witness :
    findAllVars "/test".toList = [] ∧
    (∀ c ∈ "/test".toList, isMeta c = false) ∧
    buildPathPattern "/test".toList
      = REGEX_START_OF_STRING ++ "/test".toList ++ REGEX_END_OF_STRING ∧
    ∃ r re, (NewRoute Unit).Path goCompile "/test".toList = some r ∧ r.urlMatcher = some re ∧
      ∀ s, re.Match s = true ↔ s = "/test".toList :=
  have h := literal_path_matches_exactly Unit "/test".toList "/test".toList
    (by decide) (by decide)
  ⟨by decide, by decide, h.1, h.2⟩

/-! ## Path variables -/

theorem lookup_mapSet_same {α : Type} (vs : List (Str × α)) (k : Str) (v : α) :
    (mapSet vs k v).lookup k = some v := by
  induction vs with
  | nil => simp [mapSet, List.lookup]
  | cons p vs ih =>
    obtain ⟨k1, v1⟩ := p
    by_cases h : k1 = k
    · simp [mapSet, h, List.lookup]
    · have hb : (k == k1) = false := by simpa using fun e => h e.symm
      simp [mapSet, h, List.lookup, hb, ih]

theorem lookup_mapSet_other {α : Type} (vs : List (Str × α)) (k n : Str) (v : α) (hn : n ≠ k) :
    (mapSet vs k v).lookup n = vs.lookup n := by
  induction vs with
  | nil =>
    have hb : (n == k) = false := by simpa using hn
    simp [mapSet, List.lookup, hb]
  | cons p vs ih =>
    obtain ⟨k1, v1⟩ := p
    by_cases h : k1 = k
    · subst h
      have hb : (n == k1) = false := by simpa using hn
      simp [mapSet, List.lookup, hb]
    · by_cases h2 : n = k1
      · subst h2
        simp [mapSet, h, List.lookup]
      · have hb : (n == k1) = false := by simpa using h2
        simp [mapSet, h, List.lookup, hb, ih]

/-- Rounds of the loop of `parseVariables` for other names leave the entry of
`n` in the variable map as it is. -/
theorem parseVariables_loop_other (m : List Str) (n : Str) (names : List Str) :
    ∀ (k : Nat) (acc : List (Str × Str) × List (Str × List Str)),
      (∀ j : Nat, names[j]? ≠ some n) →
      ((names.enumFrom k).foldl (parseVariablesStep m) acc).1.lookup n = acc.1.lookup n := by
  induction names with
  | nil => intro k acc _; rfl
  | cons a names ih =>
    intro k acc hno
    have ha : a ≠ n := fun h => hno 0 (by simp [h])
    have hrest : ∀ j : Nat, names[j]? ≠ some n := fun j => by simpa using hno (j + 1)
    simp only [List.enumFrom_cons, List.foldl_cons]
    rw [ih (k + 1) _ hrest]
    unfold parseVariablesStep
    split
    · rfl
    · exact lookup_mapSet_other _ _ _ _ (fun h => ha h.symm)

/-- After the loop of `parseVariables` the variable map holds, under a name,
the text of the last group with that name. -/
theorem parseVariables_loop_last (m : List Str) (n : Str) (hn : n ≠ []) (names : List Str) :
    ∀ (k i : Nat) (acc : List (Str × Str) × List (Str × List Str)),
      k ≤ i → 0 < i → names[i - k]? = some n →
      (∀ j : Nat, i < j → names[j - k]? ≠ some n) →
      ((names.enumFrom k).foldl (parseVariablesStep m) acc).1.lookup n = some (m.getD i []) := by
  induction names with
  | nil => intro k i acc _ _ h; simp at h
  | cons a names ih =>
    intro k i acc hki hi hget hlast
    simp only [List.enumFrom_cons, List.foldl_cons]
    by_cases hik : i = k
    · subst hik
      simp only [Nat.sub_self, List.getElem?_cons_zero, Option.some.injEq] at hget
      subst hget
      have hrest : ∀ j : Nat, names[j]? ≠ some a := by
        intro j
        have := hlast (i + (j + 1)) (by omega)
        have e : i + (j + 1) - i = j + 1 := by omega
        rw [e] at this
        simpa using this
      rw [parseVariables_loop_other m a names (i + 1) _ hrest]
      have h0 : i ≠ 0 := by omega
      simp only [parseVariablesStep, h0, hn, or_self, if_false]
      exact lookup_mapSet_same _ _ _
    · have hlt : k + 1 ≤ i := by omega
      have e : i - k = (i - (k + 1)) + 1 := by omega
      rw [e, List.getElem?_cons_succ] at hget
      apply ih (k + 1) i _ hlt hi hget
      intro j hj
      have := hlast j hj
      have e2 : j - k = (j - (k + 1)) + 1 := by omega
      rw [e2, List.getElem?_cons_succ] at this
      exact this

/-- C8, as stated, fails: the template `/{id}/{id}` names two groups `id`; on
the path `/1/2` the first captures `1` and the second `2`, `match` returns
`true`, and the variable map holds `id = "2"`: the variable of the first group
is not mapped to what its group captured. -/
theorem duplicate_variable_keeps_last :
    buildPathPattern "/\x7bid\x7d/\x7bid\x7d".toList
      = "\\A/(?P<id>\\w*)/(?P<id>\\w*)\\z".toList ∧
    (pathRoute Unit "/\x7bid\x7d/\x7bid\x7d".toList).urlMatcher.map
        (fun re => re.SubexpNames) = some [[], "id".toList, "id".toList] ∧
    (pathRoute Unit "/\x7bid\x7d/\x7bid\x7d".toList).urlMatcher.map
        (fun re => re.FindStringSubmatch "/1/2".toList)
      = some (some ["/1/2".toList, "1".toList, "2".toList]) ∧
    ((pathRoute Unit "/\x7bid\x7d/\x7bid\x7d".toList).matchReq
        (createGetRequest "/1/2".toList)).map
        (fun res => (res.1, res.2.1.urlVariables.lookup "id".toList))
      = some (true, some "2".toList) ∧
    ((pathRoute Unit "/\x7bid\x7d/\x7bid\x7d".toList).matchReq
        (createGetRequest "/1/2".toList)).map
        (fun res => (res.1, res.2.1.urlVariables.lookup "id".toList))
      ≠ some (true, some "1".toList) := by
  decide

/-- C8, amended: when the request path matches the primary pattern of a route
and the method and header tests pass, `match` returns `true` and afterwards the
variable map of the route holds, under every group name of the pattern, the
text captured by the last group of that name (by the one group of that name
when no name is used twice).  In particular the template `/articles/{id:\d*}`
matches `/articles/21` with `id = "21"` and does not match `/articles/21/`. -/
theorem match_extracts_variables {H : Type} (r : Route H) (re : Regexp) (req : Request)
    (m : List Str) (hre : r.urlMatcher = some re)
    (hm : re.FindStringSubmatch req.path = some m)
    (hmeth : r.methods = [] ∨ req.method ∈ r.methods) (hhdr : r.headersOk req = true) :
    (∃ r1 req1, r.matchReq req = some (true, r1, req1) ∧
      ∀ i name, 0 < i → re.SubexpNames[i]? = some name → name ≠ [] →
        (∀ j, i < j → re.SubexpNames[j]? ≠ some name) →
        r1.urlVariables.lookup name = some (m.getD i [])) ∧
    ((pathRoute Unit "/articles/\x7bid:\\d*\x7d".toList).matchReq
        (createGetRequest "/articles/21".toList)).map
        (fun res => (res.1, res.2.1.urlVariables.lookup "id".toList))
      = some (true, some "21".toList) ∧
    (pathRoute Unit "/articles/\x7bid:\\d*\x7d".toList).matchResult
        (createGetRequest "/articles/21/".toList) = some false := by
  refine ⟨?_, by decide, by decide⟩
  have hmatch : re.Match req.path = true := by simp [Regexp.Match, hm]
  have hmeth2 : (decide (r.methods.length > 0) && !r.methods.contains req.method) = false := by
    rcases hmeth with h | h
    · simp [h]
    · simp [h]
  refine ⟨(r.parseVariables re req).1, (r.parseVariables re req).2,
    by simp only [Route.matchReq, hre, hmatch, hmeth2, hhdr, Bool.not_true, Bool.false_and,
      Bool.false_eq_true, if_false], ?_⟩
  intro i name hi hname hne hlast
  simp only [Route.parseVariables, hm, List.enum]
  exact parseVariables_loop_last m name hne re.SubexpNames 0 i _ (Nat.zero_le _) hi
    (by simpa using hname) (fun j hj => by simpa using hlast j hj)

/-- Witness for C8: the template `/articles/{id:\d*}` on the path `/articles/21`. -/
theorem match_extracts_variables_witness :
    (pathRoute Unit "/articles/\x7bid:\\d*\x7d".toList).urlMatcher.isSome ∧
    ∃ r1 req1,
      (pathRoute Unit "/articles/\x7bid:\\d*\x7d".toList).matchReq
        (createGetRequest "/articles/21".toList) = some (true, r1, req1) ∧
      r1.urlVariables.lookup "id".toList = some "21".toList := by
  have hsome : (pathRoute Unit "/articles/\x7bid:\\d*\x7d".toList).urlMatcher.isSome := by
    decide
  have h := match_extracts_variables (pathRoute Unit "/articles/\x7bid:\\d*\x7d".toList)
    ((pathRoute Unit "/articles/\x7bid:\\d*\x7d".toList).urlMatcher.get hsome)
    (createGetRequest "/articles/21".toList) ["/articles/21".toList, "21".toList]
    (Option.some_get hsome).symm (by rfl) (Or.inl (by decide)) (by decide)
  obtain ⟨r1, req1, hmr, hvars⟩ := h.1
  refine ⟨hsome, r1, req1, hmr, ?_⟩
  have hnames : ((pathRoute Unit "/articles/\x7bid:\\d*\x7d".toList).urlMatcher.get
      hsome).SubexpNames = [[], "id".toList] := by rfl
  refine hvars 1 "id".toList (by decide) (by rw [hnames]; rfl) (by decide) ?_
  intro j hj
  rw [hnames]
  have : [([] : Str), "id".toList][j]? = none := by
    apply List.getElem?_eq_none
    simp only [List.length_cons, List.length_nil]
    omega
  rw [this]
  exact fun h => by cases h

theorem lookup_valuesAdd_same (vs : List (Str × List Str)) (k v : Str) :
    (valuesAdd vs k v).lookup k = some ((vs.lookup k).getD [] ++ [v]) :=
  lookup_mapSet_same _ _ _

theorem lookup_valuesAdd_other (vs : List (Str × List Str)) (k n v : Str) (hn : n ≠ k) :
    (valuesAdd vs k v).lookup n = vs.lookup n :=
  lookup_mapSet_other _ _ _ _ hn

/-- A query parameter that has a value keeps its first value through the loop
of `parseVariables`. -/
theorem parseVariables_loop_keeps_first (m : List Str) (n x : Str) (names : List Str) :
    ∀ (k : Nat) (acc : List (Str × Str) × List (Str × List Str)) (xs : List Str),
      acc.2.lookup n = some (x :: xs) →
      ∃ ys, ((names.enumFrom k).foldl (parseVariablesStep m) acc).2.lookup n
        = some (x :: ys) := by
  induction names with
  | nil => intro k acc xs h; exact ⟨xs, h⟩
  | cons a names ih =>
    intro k acc xs h
    simp only [List.enumFrom_cons, List.foldl_cons]
    have hstep : ∃ ys, (parseVariablesStep m acc (k, a)).2.lookup n = some (x :: ys) := by
      unfold parseVariablesStep
      split
      · exact ⟨xs, h⟩
      · by_cases hna : n = a
        · subst hna
          exact ⟨xs ++ [m.getD k []], by simp [lookup_valuesAdd_same, h]⟩
        · exact ⟨xs, by simp only [lookup_valuesAdd_other _ _ _ _ hna, h]⟩
    obtain ⟨ys, hys⟩ := hstep
    exact ih (k + 1) _ ys hys

/-- A query parameter without a value gets, in the loop of `parseVariables`,
the text of the first group that carries its name as its first value. -/
theorem parseVariables_loop_first (m : List Str) (n : Str) (hn : n ≠ []) (names : List Str) :
    ∀ (k i : Nat) (acc : List (Str × Str) × List (Str × List Str)),
      k ≤ i → 0 < i → names[i - k]? = some n →
      (∀ j : Nat, k ≤ j → 0 < j → j < i → names[j - k]? ≠ some n) →
      (acc.2.lookup n).getD [] = [] →
      valuesGet ((names.enumFrom k).foldl (parseVariablesStep m) acc).2 n = m.getD i [] := by
  induction names with
  | nil => intro k i acc _ _ h; simp at h
  | cons a names ih =>
    intro k i acc hki hi hget hfirst hfresh
    simp only [List.enumFrom_cons, List.foldl_cons]
    by_cases hik : i = k
    · subst hik
      simp only [Nat.sub_self, List.getElem?_cons_zero, Option.some.injEq] at hget
      subst hget
      have h0 : i ≠ 0 := by omega
      have hstep : (parseVariablesStep m acc (i, a)).2.lookup a = some (m.getD i [] :: []) := by
        simp only [parseVariablesStep, h0, hn, or_self, if_false, lookup_valuesAdd_same, hfresh,
          List.nil_append]
      obtain ⟨ys, hys⟩ := parseVariables_loop_keeps_first m a (m.getD i []) names (i + 1) _ [] hstep
      simp [valuesGet, hys]
    · have hlt : k + 1 ≤ i := by omega
      have e : i - k = (i - (k + 1)) + 1 := by omega
      rw [e, List.getElem?_cons_succ] at hget
      apply ih (k + 1) i _ hlt hi hget
      · intro j hj1 hj2 hj3
        have := hfirst j (by omega) hj2 hj3
        have e2 : j - k = (j - (k + 1)) + 1 := by omega
        rw [e2, List.getElem?_cons_succ] at this
        exact this
      · unfold parseVariablesStep
        split
        · exact hfresh
        · rename_i hcond
          simp only [not_or] at hcond
          have hna : n ≠ a := by
            intro h
            have := hfirst k (le_refl k) (by omega) (by omega)
            simp [h] at this
          simp only [lookup_valuesAdd_other _ _ _ _ hna, hfresh]

/-- When the request carries no value under the name of a path variable, the
lookup `Get` after a successful `match` through the primary pattern yields the
text captured by the first group of that name. -/
theorem match_query_get_fresh {H : Type} (r : Route H) (re : Regexp) (req : Request)
    (m : List Str) (hre : r.urlMatcher = some re)
    (hm : re.FindStringSubmatch req.path = some m)
    (hmeth : r.methods = [] ∨ req.method ∈ r.methods) (hhdr : r.headersOk req = true)
    (i : Nat) (name : Str) (hi : 0 < i) (hname : re.SubexpNames[i]? = some name)
    (hne : name ≠ [])
    (hfirst : ∀ j : Nat, 0 < j → j < i → re.SubexpNames[j]? ≠ some name)
    (hfresh : (req.query.lookup name).getD [] = []) :
    ∃ r1 req1, r.matchReq req = some (true, r1, req1) ∧
      valuesGet req1.query name = m.getD i [] := by
  have hmatch : re.Match req.path = true := by simp [Regexp.Match, hm]
  have hmeth2 : (decide (r.methods.length > 0) && !r.methods.contains req.method) = false := by
    rcases hmeth with h | h
    · simp [h]
    · simp [h]
  refine ⟨(r.parseVariables re req).1, (r.parseVariables re req).2,
    by simp only [Route.matchReq, hre, hmatch, hmeth2, hhdr, Bool.not_true, Bool.false_and,
      Bool.false_eq_true, if_false], ?_⟩
  simp only [Route.parseVariables, hm, List.enum]
  exact parseVariables_loop_first m name hne re.SubexpNames 0 i _ (Nat.zero_le _) hi
    (by simpa using hname) (fun j _ hj2 hj3 => by simpa using hfirst j hj2 hj3) hfresh

/-- C9: the route of `TestHandlerServieHTTPWithId`, template
`/route/articles/{id:\d*}`, on a request for `/route/articles/21` that already
carries the query parameter `id=5`: `match` returns `true` and extracts
`id = "21"` into the variable map, but the value is appended to the query
parameter, so the lookup `Get("id")` of a downstream handler yields `"5"`. -/
theorem match_query_get_shadowed :
    ((pathRoute Unit "/route/articles/\x7bid:\\d*\x7d".toList).matchReq
        ⟨"GET".toList, "/route/articles/21".toList, [], [("id".toList, ["5".toList])]⟩).map
      (fun res => (res.1, res.2.1.urlVariables.lookup "id".toList))
      = some (true, some "21".toList) ∧
    ((pathRoute Unit "/route/articles/\x7bid:\\d*\x7d".toList).matchReq
        ⟨"GET".toList, "/route/articles/21".toList, [], [("id".toList, ["5".toList])]⟩).map
      (fun res => valuesGet res.2.2.query "id".toList) = some "5".toList ∧
    ((pathRoute Unit "/route/articles/\x7bid:\\d*\x7d".toList).matchReq
        ⟨"GET".toList, "/route/articles/21".toList, [], [("id".toList, ["5".toList])]⟩).map
      (fun res => res.2.2.query) = some [("id".toList, ["5".toList, "21".toList])] := by
  decide

/-! ## Registration of routes -/

theorem foldl_AddRoute_routes {H : Type} (rs : List (Route H)) (wr : WebRouter H) :
    (rs.foldl WebRouter.AddRoute wr).routes = wr.routes ++ rs := by
  induction rs generalizing wr with
  | nil => simp
  | cons r rs ih => simp [ih, WebRouter.AddRoute]

/-- C16: `AddRoute` hands back the router it was called on, now holding one
route more: the new route stands last and every route registered before keeps
its position; so after `n` calls on `NewWebRouter()` the router counts `n`
routes. -/
theorem addRoute_appends {H : Type} (wr : WebRouter H) (r : Route H) (rs : List (Route H)) :
    (wr.AddRoute r).routes = wr.routes ++ [r] ∧
    (wr.AddRoute r).routeCount = wr.routeCount + 1 ∧
    (wr.AddRoute r).routes[wr.routeCount]? = some r ∧
    (∀ i, i < wr.routeCount → (wr.AddRoute r).routes[i]? = wr.routes[i]?) ∧
    (rs.foldl WebRouter.AddRoute (NewWebRouter H)).routeCount = rs.length ∧
    (rs.foldl WebRouter.AddRoute (NewWebRouter H)).routes = rs := by
  refine ⟨rfl, by simp [WebRouter.AddRoute, WebRouter.routeCount], ?_, ?_, ?_, ?_⟩
  · simp [WebRouter.AddRoute, WebRouter.routeCount]
  · intro i hi
    simp only [WebRouter.routeCount] at hi
    simp [WebRouter.AddRoute, List.getElem?_append_left hi]
  · simp [WebRouter.routeCount, foldl_AddRoute_routes, NewWebRouter]
  · simp [foldl_AddRoute_routes, NewWebRouter]

/-! ## What `match` leaves untouched -/

/-- C19: `match` changes the variable map of the route and the query of the
request only when it returns `true` and the primary pattern matches the path:
when it returns `false`, and when it returns `true` though the primary pattern
does not match (a prefix pattern did), route and request, and so the variable
map with the values of earlier requests and the query, are as before the call. -/
theorem match_frame {H : Type} (r r1 : Route H) (req req1 : Request) (b : Bool) (re : Regexp)
    (hre : r.urlMatcher = some re) (h : r.matchReq req = some (b, r1, req1))
    (hcase : b = false ∨ re.Match req.path = false) :
    r1 = r ∧ req1 = req ∧ r1.urlVariables = r.urlVariables ∧ req1.query = req.query := by
  have key : r1 = r ∧ req1 = req := by
    rcases hcase with hb | hprim
    · subst hb
      exact matchReq_false_unchanged r req r1 req1 h
    · have hfind : re.FindStringSubmatch req.path = none := by
        simpa [Regexp.Match] using hprim
      unfold Route.matchReq at h
      rw [hre] at h
      simp only at h
      split at h
      · simp only [Option.some.injEq, Prod.mk.injEq] at h
        exact ⟨h.2.1.symm, h.2.2.symm⟩
      · split at h
        · simp only [Option.some.injEq, Prod.mk.injEq] at h
          exact ⟨h.2.1.symm, h.2.2.symm⟩
        · split at h
          · simp only [Option.some.injEq, Prod.mk.injEq] at h
            exact ⟨h.2.1.symm, h.2.2.symm⟩
          · simp only [Route.parseVariables, hfind, Option.some.injEq, Prod.mk.injEq] at h
            exact ⟨h.2.1.symm, h.2.2.symm⟩
  obtain ⟨rfl, rfl⟩ := key
  exact ⟨rfl, rfl, rfl, rfl⟩

/-- Witness for C19: the route of `TestFindRouteWithPathPrefix` matches a style
sheet path through its prefix pattern only; the variable `id` left by an
earlier request and the query of the request stay as they are. -/
theorem match_frame_witness :
    staleRoute.urlMatcher.isSome ∧
    staleRoute.matchResult cssRequest = some true ∧
    (staleRoute.urlMatcher.map (fun re => re.Match cssRequest.path)) = some false ∧
    ∃ r1 req1, staleRoute.matchReq cssRequest = some (true, r1, req1) ∧
      r1.urlVariables = [("id".toList, "7".toList)] ∧
      req1.query = [("q".toList, ["1".toList])] := by
  have hsome : staleRoute.urlMatcher.isSome := by decide
  have hm : staleRoute.matchReq cssRequest = some (true, staleRoute, cssRequest) := by rfl
  have h := match_frame staleRoute staleRoute cssRequest cssRequest true
    (staleRoute.urlMatcher.get hsome) (Option.some_get hsome).symm hm (Or.inr (by rfl))
  exact ⟨hsome, by decide, by decide, staleRoute, cssRequest, hm, h.2.2.1, h.2.2.2⟩

/-! ## Header requirements -/

theorem lookup_append_of_none {α : Type} (xs ys : List (Str × α)) (k : Str)
    (h : xs.lookup k = none) : (xs ++ ys).lookup k = ys.lookup k := by
  induction xs with
  | nil => rfl
  | cons p xs ih =>
    obtain ⟨k1, v1⟩ := p
    by_cases hk : k = k1
    · subst hk
      simp [List.lookup] at h
    · have hb : (k == k1) = false := by simpa using hk
      simp only [List.cons_append, List.lookup, hb] at h ⊢
      exact ih h

/-- After `Header(k, v)` the map of header requirements has an entry for `k`. -/
theorem header_lookup_after {H : Type} (compile : Str → Option Regexp) (r r1 : Route H)
    (k v : Str) (h : r.Header compile k v = some r1) : ∃ re, r1.headers.lookup k = some re := by
  unfold Route.Header at h
  cases hl : r.headers.lookup k with
  | some re =>
    simp only [hl, Option.some.injEq] at h
    subst h
    exact ⟨re, hl⟩
  | none =>
    simp only [hl] at h
    cases hc : compile v with
    | none => simp [hc] at h
    | some re =>
      simp only [hc, Option.some.injEq] at h
      subst h
      exact ⟨re, by simp [lookup_append_of_none _ _ _ hl, List.lookup]⟩

/-- C20: `Header` keeps the first pattern given for a header name: after
`Header(k, v1)`, a call `Header(k, v2)` returns the route unchanged, whatever
`v2` is (it is not even compiled), so `match` answers as it does after
`Header(k, v1)` alone. -/
theorem header_first_write_wins {H : Type} (compile : Str → Option Regexp) (r r1 : Route H)
    (k v1 v2 : Str) (h1 : r.Header compile k v1 = some r1) :
    r1.Header compile k v2 = some r1 ∧
    ∀ req, (r1.Header compile k v2).bind (fun r2 => r2.matchReq req) = r1.matchReq req := by
  obtain ⟨re, hre⟩ := header_lookup_after compile r r1 k v1 h1
  have h2 : r1.Header compile k v2 = some r1 := by
    simp only [Route.Header, hre]
  exact ⟨h2, fun req => by rw [h2]; rfl⟩

/-- Witness for C20: a second `Header("Accept", ...)` with the text `(`, which is
no pattern at all, after `Header("Accept", "application/json")`. -/
theorem header_first_write_wins_witness :
    (pathRoute Unit "/route/articles/".toList).Header goCompile "Accept".toList
        "application/json".toList
      = some (headerRoute Unit "/route/articles/".toList "Accept".toList
          "application/json".toList) ∧
    goCompile "(".toList = none ∧
    (headerRoute Unit "/route/articles/".toList "Accept".toList
        "application/json".toList).Header goCompile "Accept".toList "(".toList
      = some (headerRoute Unit "/route/articles/".toList "Accept".toList
          "application/json".toList) := by
  have h1 : (pathRoute Unit "/route/articles/".toList).Header goCompile "Accept".toList
        "application/json".toList
      = some (headerRoute Unit "/route/articles/".toList "Accept".toList
          "application/json".toList) := by rfl
  exact ⟨h1, by rfl,
    (header_first_write_wins goCompile _ _ "Accept".toList "application/json".toList
      "(".toList h1).1⟩

/-- A `match` call that returns `true` has found, for every header
requirement, the pattern in the value that `Header.Get` yields. -/
theorem match_true_headers {H : Type} (r r1 : Route H) (req req1 : Request)
    (h : r.matchReq req = some (true, r1, req1)) :
    ∀ kv ∈ r.headers, kv.2.Match (req.headerGet kv.1) = true := by
  have hok : r.headersOk req = true := by
    unfold Route.matchReq at h
    split at h
    · simp at h
    · split at h
      · simp at h
      · split at h
        · simp at h
        · split at h
          · simp at h
          · rename_i hh
            simpa using hh
  intro kv hkv
  exact (List.all_eq_true.mp hok) kv hkv

/-- A request without the header does not match a route that requires it with
a pattern that the empty text does not satisfy. -/
theorem match_header_absent {H : Type} (r : Route H) (req : Request) (k : Str) (re : Regexp)
    (hpath : r.urlMatcher.isSome) (hk : (k, re) ∈ r.headers)
    (habsent : req.header.lookup (canonicalMIMEHeaderKey k) = none)
    (hempty : re.Match [] = false) :
    r.matchResult req = some false := by
  obtain ⟨res, hres⟩ := matchReq_isSome r req hpath
  obtain ⟨b, r1, req1⟩ := res
  cases b with
  | false => simp [Route.matchResult, hres]
  | true =>
    have := match_true_headers r r1 req req1 hres (k, re) hk
    simp only [Request.headerGet, habsent] at this
    rw [hempty] at this
    cases this

/-- C11: a route that requires the header `X-Trace` with the pattern `.*` is
matched by a request that carries no header at all: `Header.Get` yields the
empty text for an absent header, and the pattern is tried on it.  The route
that requires `Accept` to match `application/json` does not match a request
with `Accept: application/html`, and matches one with `Accept: application/json`. -/
theorem header_absent_still_matches :
    (headerRoute Unit "/route/articles/".toList "X-Trace".toList ".*".toList).headers.map
        (fun kv => kv.1) = ["X-Trace".toList] ∧
    (createGetRequest "/route/articles/".toList).header = [] ∧
    (headerRoute Unit "/route/articles/".toList "X-Trace".toList ".*".toList).matchResult
        (createGetRequest "/route/articles/".toList) = some true ∧
    (headerRoute Unit "/route/articles/".toList "Accept".toList
        "application/json".toList).matchResult
        { createGetRequest "/route/articles/".toList with
          header := [("Accept".toList, ["application/html".toList])] } = some false ∧
    (headerRoute Unit "/route/articles/".toList "Accept".toList
        "application/json".toList).matchResult
        { createGetRequest "/route/articles/".toList with
          header := [("Accept".toList, ["application/json".toList])] } = some true := by
  decide

/-! ## Prefix patterns -/

/-- What `PathPrefix` does to a route: one more prefix matcher, compiled from
the root path followed by the argument, with `//` collapsed. -/
theorem pathPrefix_appends {H : Type} (compile : Str → Option Regexp) (r r1 : Route H) (p : Str)
    (h : r.PathPrefix compile p = some r1) :
    ∃ m, compile (collapseSlashes (r.rootPath ++ p)) = some m ∧
      r1 = { r with pathPrefixMatchers := r.pathPrefixMatchers ++ [m] } := by
  unfold Route.PathPrefix at h
  cases hc : compile (collapseSlashes (r.rootPath ++ p)) with
  | none => simp [hc] at h
  | some m =>
    simp only [hc, Option.some.injEq] at h
    exact ⟨m, rfl, h.symm⟩

/-- When the primary pattern fails and the method and header tests pass,
`match` returns what the prefix matchers say, and changes nothing. -/
theorem matchReq_primary_fails {H : Type} (r : Route H) (re : Regexp) (req : Request)
    (hre : r.urlMatcher = some re) (hprim : re.Match req.path = false)
    (hmeth : r.methods = [] ∨ req.method ∈ r.methods) (hhdr : r.headersOk req = true) :
    r.matchReq req = some (r.pathPrefixMatchers.any (fun m => m.Match req.path), r, req) := by
  have hfind : re.FindStringSubmatch req.path = none := by
    simpa [Regexp.Match] using hprim
  have hmeth2 : (decide (r.methods.length > 0) && !r.methods.contains req.method) = false := by
    rcases hmeth with h | h
    · simp [h]
    · simp [h]
  unfold Route.matchReq
  rw [hre]
  cases hany : r.pathPrefixMatchers.any (fun m => m.Match req.path) with
  | false => simp [hprim, Route.matchPathPrefix, hany]
  | true =>
    simp only [hprim, Route.matchPathPrefix, hany, Bool.not_true, Bool.and_false,
      Bool.false_eq_true, if_false, hmeth2, hhdr, Route.parseVariables, hfind]

/-- C12: a route built by `Path(root)` and then `PathPrefix(p)` holds the
primary pattern of `root` and one prefix pattern, compiled from `root` + `p`
with `//` replaced by `/`; on a request whose path fails the primary pattern
it answers what that prefix pattern finds anywhere in the path.  For every
route, with any number of prefix patterns: when the primary pattern fails and
the method and header tests pass, `match` succeeds exactly when some prefix
pattern finds a match in the path, and when the primary pattern matches,
`match` succeeds whatever the prefix patterns are; and `Path("/route/article/")` with
`PathPrefix("/css/")` matches `/route/article/css/mystylesheet.css`, which the
primary pattern does not. -/
theorem pathPrefix_fallback {H : Type} (compile : Str → Option Regexp) (root p : Str)
    (r1 r2 : Route H) (hpath : (NewRoute H).Path compile root = some r1)
    (hpre : r1.PathPrefix compile p = some r2) :
    (∃ re m, compile (buildPathPattern root) = some re ∧
      compile (collapseSlashes (root ++ p)) = some m ∧
      r2.urlMatcher = some re ∧ r2.pathPrefixMatchers = [m] ∧
      ∀ req, re.Match req.path = false →
        r2.matchReq req = some (m.Match req.path, r2, req)) ∧
    (∀ (r : Route H) (re : Regexp) (req : Request), r.urlMatcher = some re →
      re.Match req.path = false → (r.methods = [] ∨ req.method ∈ r.methods) →
      r.headersOk req = true →
      (r.matchResult req = some true ↔ ∃ m ∈ r.pathPrefixMatchers, m.Match req.path = true)) ∧
    (∀ (r : Route H) (re : Regexp) (req : Request), r.urlMatcher = some re →
      re.Match req.path = true → (r.methods = [] ∨ req.method ∈ r.methods) →
      r.headersOk req = true → r.matchResult req = some true) ∧
    (prefixRoute Unit "/route/article/".toList "/css/".toList).matchResult
        (createGetRequest "/route/article/css/mystylesheet.css".toList) = some true ∧
    (pathRoute Unit "/route/article/".toList).matchResult
        (createGetRequest "/route/article/css/mystylesheet.css".toList) = some false := by
  refine ⟨?_, ?_, ?_, by decide, by decide⟩
  rotate_left 2
  · intro r re req hre hprim hmeth hhdr
    have hmeth2 : (decide (r.methods.length > 0) && !r.methods.contains req.method) = false := by
      rcases hmeth with h | h
      · simp [h]
      · simp [h]
    simp only [Route.matchResult, Route.matchReq, hre, hprim, hmeth2, hhdr, Bool.not_true,
      Bool.false_and, Bool.false_eq_true, if_false, Option.map_some']
  · unfold Route.Path at hpath
    cases hc : compile (buildPathPattern root) with
    | none => simp [hc] at hpath
    | some re =>
      simp only [hc, Option.some.injEq] at hpath
      subst hpath
      obtain ⟨m, hm, hr2⟩ := pathPrefix_appends compile _ r2 p hpre
      subst hr2
      refine ⟨re, m, rfl, hm, rfl, rfl, ?_⟩
      intro req hprim
      have := matchReq_primary_fails
        ({ ({ NewRoute H with rootPath := root, urlMatcher := some re } : Route H) with
          pathPrefixMatchers := (NewRoute H).pathPrefixMatchers ++ [m] }) re req rfl hprim
        (Or.inl rfl) rfl
      simpa [NewRoute] using this
  · intro r re req hre hprim hmeth hhdr
    have h := matchReq_primary_fails r re req hre hprim hmeth hhdr
    simp only [Route.matchResult, h, Option.map_some', Option.some.injEq, List.any_eq_true]

/-- Witness for C12: the route of `TestFindRouteWithPathPrefix`. -/
theorem pathPrefix_fallback_witness :
    (NewRoute Unit).Path goCompile "/route/article/".toList
      = some (pathRoute Unit "/route/article/".toList) ∧
    (pathRoute Unit "/route/article/".toList).PathPrefix goCompile "/css/".toList
      = some (prefixRoute Unit "/route/article/".toList "/css/".toList) ∧
    collapseSlashes ("/route/article/".toList ++ "/css/".toList) = "/route/article/css/".toList ∧
    ∃ re m, goCompile (buildPathPattern "/route/article/".toList) = some re ∧
      goCompile (collapseSlashes ("/route/article/".toList ++ "/css/".toList)) = some m ∧
      (prefixRoute Unit "/route/article/".toList "/css/".toList).urlMatcher = some re ∧
      (prefixRoute Unit "/route/article/".toList "/css/".toList).pathPrefixMatchers = [m] ∧
      ∀ req, re.Match req.path = false →
        (prefixRoute Unit "/route/article/".toList "/css/".toList).matchReq req
          = some (m.Match req.path, prefixRoute Unit "/route/article/".toList "/css/".toList,
              req) := by
  have h1 : (NewRoute Unit).Path goCompile "/route/article/".toList
      = some (pathRoute Unit "/route/article/".toList) := by rfl
  have h2 : (pathRoute Unit "/route/article/".toList).PathPrefix goCompile "/css/".toList
      = some (prefixRoute Unit "/route/article/".toList "/css/".toList) := by rfl
  exact ⟨h1, h2, by decide,
    (pathPrefix_fallback goCompile "/route/article/".toList "/css/".toList _ _ h1 h2).1⟩

/-! ## Serving a request -/

/-- A `match` call changes nothing of a route but its variable map. -/
theorem matchReq_keeps {H : Type} (r r1 : Route H) (req req1 : Request) (b : Bool)
    (h : r.matchReq req = some (b, r1, req1)) :
    r1.handler = r.handler ∧ r1.urlMatcher = r.urlMatcher ∧ r1.methods = r.methods ∧
    r1.headers = r.headers ∧ r1.pathPrefixMatchers = r.pathPrefixMatchers ∧
    r1.rootPath = r.rootPath := by
  unfold Route.matchReq at h
  split at h
  · simp at h
  · split at h
    · simp only [Option.some.injEq, Prod.mk.injEq] at h
      obtain ⟨_, rfl, _⟩ := h
      exact ⟨rfl, rfl, rfl, rfl, rfl, rfl⟩
    · split at h
      · simp only [Option.some.injEq, Prod.mk.injEq] at h
        obtain ⟨_, rfl, _⟩ := h
        exact ⟨rfl, rfl, rfl, rfl, rfl, rfl⟩
      · split at h
        · simp only [Option.some.injEq, Prod.mk.injEq] at h
          obtain ⟨_, rfl, _⟩ := h
          exact ⟨rfl, rfl, rfl, rfl, rfl, rfl⟩
        · simp only [Option.some.injEq, Prod.mk.injEq] at h
          obtain ⟨_, rfl, _⟩ := h
          unfold Route.parseVariables
          split <;> exact ⟨rfl, rfl, rfl, rfl, rfl, rfl⟩

/-- The routes that `findRoute` leaves behind carry the handlers they had. -/
theorem findRouteLoop_handlers {H : Type} (vs : List (Route H)) :
    ∀ (i : Nat) (seen : List (Route H)) (req : Request) (res : Option Nat)
      (rs : List (Route H)) (req1 : Request),
      findRouteLoop vs i seen req = some (res, rs, req1) →
      rs.map (fun r => r.handler) = (seen ++ vs).map (fun r => r.handler) := by
  induction vs with
  | nil =>
    intro i seen req res rs req1 h
    simp only [findRouteLoop, Option.some.injEq, Prod.mk.injEq] at h
    rw [← h.2.1]
    simp
  | cons v vs ih =>
    intro i seen req res rs req1 h
    simp only [findRouteLoop] at h
    cases hm : v.matchReq req with
    | none => simp [hm] at h
    | some out =>
      obtain ⟨b, v1, req2⟩ := out
      have hkeep := (matchReq_keeps v v1 req req2 b hm).1
      cases b with
      | true =>
        simp only [hm, Option.some.injEq, Prod.mk.injEq] at h
        rw [← h.2.1]
        simp [hkeep]
      | false =>
        simp only [hm] at h
        have := ih (i + 1) (seen ++ [v1]) req2 res rs req1 h
        rw [this]
        simp [hkeep]

theorem httpError_body (w : ResponseWriter) (msg : Str) (code : Nat) :
    (httpError w msg code).Body = w.Body ++ (msg ++ ['\n']) := by
  cases hw : w.wroteHeader <;>
    simp [httpError, ResponseWriter.Write, ResponseWriter.WriteHeader,
      ResponseWriter.headerSet, ResponseWriter.headerDel, hw]

theorem httpError_code (w : ResponseWriter) (msg : Str) (code : Nat)
    (hfresh : w.wroteHeader = false) : (httpError w msg code).Code = code := by
  simp [httpError, ResponseWriter.Write, ResponseWriter.WriteHeader, ResponseWriter.headerSet,
    ResponseWriter.headerDel, hfresh]

/-- C13: on a router all of whose routes have a compiled pattern, and a handler
where they match the request, `ServeHTTP` returns.  When `findRoute` returns no route it calls no handler and
answers with `http.Error`: the body gets the text `Could not find route for: `
followed by the request path, and the status written is 404.  When `findRoute`
returns a route, `ServeHTTP` calls the handler of that route once, with the
response writer it was given and the request as `findRoute` left it, and the
response is what that handler made of it.  No handler is called exactly when
`findRoute` returns no route. -/
theorem serveHTTP_dispatch (wr : WebRouter Handler) (w : ResponseWriter) (req : Request)
    (hpat : ∀ r ∈ wr.routes, r.urlMatcher.isSome)
    (hserve : ∀ r ∈ wr.routes, r.matchResult req = some true → r.handler.isSome) :
    ∃ out res wr1 req1, wr.ServeHTTP w req = some out ∧
      wr.findRoute req = some (res, wr1, req1) ∧
      out.router = wr1 ∧ out.req = req1 ∧
      (res = none ↔ out.calls = []) ∧
      (res = none →
        out.resp = httpError w ("Could not find route for: ".toList ++ req.path) 404 ∧
        out.resp.Body = w.Body ++ ("Could not find route for: ".toList ++ req.path ++ ['\n']) ∧
        (w.wroteHeader = false → out.resp.Code = 404)) ∧
      (∀ i, res = some i → ∃ r h, wr.routes[i]? = some r ∧ r.handler = some h ∧
        out.calls = [(i, w, req1)] ∧ out.resp = h w req1) := by
  obtain ⟨res, rs, req1, hloop, hspec⟩ :=
    findRouteLoop_spec wr.routes 0 [] req hpat
  have hfind : wr.findRoute req = some (res, ⟨rs⟩, req1) := by
    simp [WebRouter.findRoute, hloop]
  have hhand := findRouteLoop_handlers wr.routes 0 [] req res rs req1 hloop
  simp only [List.nil_append] at hhand
  cases res with
  | none =>
    refine ⟨⟨⟨rs⟩, httpError w ("Could not find route for: ".toList ++ req.path) 404, req1, []⟩,
      none, ⟨rs⟩, req1, by simp only [WebRouter.ServeHTTP, hfind], hfind, rfl, rfl,
      by simp, ?_, by simp⟩
    intro _
    refine ⟨rfl, ?_, ?_⟩
    · rw [httpError_body]
    · exact httpError_code _ _ _
  | some i =>
    rcases hspec with ⟨hnone, _⟩ | ⟨k, r, hk, hget, htrue, _⟩
    · cases hnone
    · simp only [Nat.zero_add, Option.some.injEq] at hk
      subst hk
      obtain ⟨h, hh⟩ := Option.isSome_iff_exists.mp (hserve r (List.getElem?_mem hget) htrue)
      have hget2 : (rs.map (fun r => r.handler))[i]? = some (some h) := by
        rw [hhand, List.getElem?_map, hget]
        simp [hh]
      rw [List.getElem?_map] at hget2
      cases hrs : rs[i]? with
      | none => simp [hrs] at hget2
      | some r2 =>
        simp only [hrs, Option.map_some', Option.some.injEq] at hget2
        refine ⟨⟨⟨rs⟩, h w req1, req1, [(i, w, req1)]⟩, some i, ⟨rs⟩, req1,
          by simp only [WebRouter.ServeHTTP, hfind, hrs, hget2], hfind, rfl, rfl, by simp,
          by simp, ?_⟩
        intro j hj
        simp only [Option.some.injEq] at hj
        subst hj
        exact ⟨r, h, hget, hh, rfl, rfl⟩

/-- Witness for C13: the router of `TestHandlerServieHTTPWithId` on the request
of that test and on a request for an unregistered path. -/
theorem serveHTTP_dispatch_witness :
    (∀ r ∈ idRouter.routes, r.urlMatcher.isSome) ∧
    (∀ r ∈ idRouter.routes,
      r.matchResult (createGetRequest "/nowhere".toList) = some true → r.handler.isSome) ∧
    (idRouter.ServeHTTP NewRecorder (createGetRequest "/route/articles/21".toList)).map
      (fun out => (out.resp.Code, out.resp.Body)) = some (200, "21".toList) ∧
    (idRouter.ServeHTTP NewRecorder (createGetRequest "/nowhere".toList)).map
      (fun out => (out.resp.Code, out.resp.Body))
      = some (404, "Could not find route for: /nowhere\n".toList) ∧
    ∃ out res wr1 req1,
      idRouter.ServeHTTP NewRecorder (createGetRequest "/nowhere".toList) = some out ∧
      idRouter.findRoute (createGetRequest "/nowhere".toList) = some (res, wr1, req1) ∧
      (res = none ↔ out.calls = []) := by
  have hpat : ∀ r ∈ idRouter.routes, r.urlMatcher.isSome := by
    intro r hr
    simp only [idRouter, WebRouter.AddRoute, NewWebRouter, List.nil_append,
      List.mem_singleton] at hr
    subst hr
    decide
  have hhand : ∀ r ∈ idRouter.routes,
      r.matchResult (createGetRequest "/nowhere".toList) = some true → r.handler.isSome := by
    intro r hr _
    simp only [idRouter, WebRouter.AddRoute, NewWebRouter, List.nil_append,
      List.mem_singleton] at hr
    subst hr
    rfl
  obtain ⟨out, res, wr1, req1, h1, h2, _, _, h5, _⟩ :=
    serveHTTP_dispatch idRouter NewRecorder (createGetRequest "/nowhere".toList) hpat hhand
  exact ⟨hpat, hhand, by decide, by decide, out, res, wr1, req1, h1, h2, h5⟩

/-! ## The states of a chain -/

/-- Handlers that note the state they are handed only ever add to the list of
states noted. -/
theorem serveLoop_observed_log {W : Type} (hs : List (ChainedHandler W)) :
    ∀ (i : Nat) (run : ChainRun (W × List ReqState)),
      ∃ more, (HandlerChain.serveLoop (hs.map observed) i run).chainedReq.Resp.2
        = run.chainedReq.Resp.2 ++ more := by
  induction hs with
  | nil => intro i run; exact ⟨[], by simp [HandlerChain.serveLoop]⟩
  | cons c cs ih =>
    intro i run
    simp only [List.map_cons, HandlerChain.serveLoop]
    split
    · exact ⟨[run.chainedReq.State], rfl⟩
    · obtain ⟨more, hmore⟩ := ih (i + 1)
        ⟨i + 1, observed c run.chainedReq, run.invoked ++ [i]⟩
      exact ⟨run.chainedReq.State :: more, by rw [hmore]; simp [observed]⟩

/-- C14, as stated, fails: in a chain whose first handler leaves the record as
it is, the second handler is handed the state `READY`, not `ACTIVE`; the loop
of `ServeHTTP` never writes `ACTIVE`. -/
theorem second_handler_sees_ready_not_active :
    ((⟨0, [observed (idleHandler : ChainedHandler Unit), observed MockHandlerActive]⟩ :
        HandlerChain (Unit × List ReqState)).ServeHTTP ((), [])
        (createGetRequest "/testblog".toList)).2.1.Resp.2
      = [ReqState.READY, ReqState.READY] ∧
    ((⟨0, [observed (idleHandler : ChainedHandler Unit), observed MockHandlerActive]⟩ :
        HandlerChain (Unit × List ReqState)).ServeHTTP ((), [])
        (createGetRequest "/testblog".toList)).2.1.Resp.2[1]? ≠ some ReqState.ACTIVE := by
  decide

/-- C14, amended: the loop of `ServeHTTP` hands the record from one handler to
the next as the handler left it: in every chain whose first handler leaves
the state it received untouched, the state observed by the second handler is
`READY` (a state is `ACTIVE` only when a handler has set it). -/
theorem second_handler_sees_ready {W : Type} (c1 c2 : ChainedHandler W)
    (cs : List (ChainedHandler W)) (n : Nat) (w : W) (r : Request)
    (huntouched : (c1 ⟨w, r, ReqState.READY⟩).State = ReqState.READY) :
    ((⟨n, (c1 :: c2 :: cs).map observed⟩ : HandlerChain (W × List ReqState)).ServeHTTP
      (w, []) r).2.1.Resp.2[1]? = some ReqState.READY := by
  have h1 : (observed c1 ⟨(w, []), r, ReqState.READY⟩).State ≠ ReqState.STOPPED := by
    simp [observed, huntouched]
  have h2 : (observed c2 (observed c1 ⟨(w, []), r, ReqState.READY⟩)).Resp.2
      = [ReqState.READY, ReqState.READY] := by
    simp [observed, huntouched]
  simp only [HandlerChain.ServeHTTP, List.map_cons, HandlerChain.serveLoop, h1, if_false]
  split
  · simp [h2]
  · obtain ⟨more, hmore⟩ := serveLoop_observed_log cs 2
      ⟨2, observed c2 (observed c1 ⟨(w, []), r, ReqState.READY⟩), [] ++ [0] ++ [1]⟩
    rw [hmore, h2]
    simp

/-- Witness for C14: a first handler that leaves the record as it is, before
`MockHandlerActive` and `MockHandlerStopped`. -/
theorem second_handler_sees_ready_witness :
    ((idleHandler : ChainedHandler Unit) ⟨(), createGetRequest "/testblog".toList,
      ReqState.READY⟩).State = ReqState.READY ∧
    ((⟨0, ([idleHandler, MockHandlerActive, MockHandlerStopped] :
        List (ChainedHandler Unit)).map observed⟩ :
        HandlerChain (Unit × List ReqState)).ServeHTTP ((), [])
        (createGetRequest "/testblog".toList)).2.1.Resp.2[1]? = some ReqState.READY :=
  ⟨rfl, second_handler_sees_ready idleHandler MockHandlerActive [MockHandlerStopped] 0 ()
    (createGetRequest "/testblog".toList) rfl⟩

theorem serveLoop_invoked_mono {W : Type} (hs : List (ChainedHandler W)) :
    ∀ (i : Nat) (run : ChainRun W) (x : Nat), x ∈ run.invoked →
      x ∈ (HandlerChain.serveLoop hs i run).invoked := by
  induction hs with
  | nil => intro i run x hx; exact hx
  | cons c cs ih =>
    intro i run x hx
    simp only [HandlerChain.serveLoop]
    split
    · exact List.mem_append_left _ hx
    · exact ih (i + 1) _ x (List.mem_append_left _ hx)

/-- The loop reaches every handler before which no handler has left `STOPPED`. -/
theorem serveLoop_invokes {W : Type} (hs : List (ChainedHandler W)) :
    ∀ (i : Nat) (run : ChainRun W) (j : Nat), j < hs.length →
      (∀ t, 1 ≤ t → t ≤ j → (runHandlers hs t run.chainedReq).State ≠ ReqState.STOPPED) →
      (i + j) ∈ (HandlerChain.serveLoop hs i run).invoked := by
  induction hs with
  | nil => intro i run j hj; simp at hj
  | cons c cs ih =>
    intro i run j hj hno
    simp only [HandlerChain.serveLoop]
    cases j with
    | zero =>
      split
      · simp
      · exact serveLoop_invoked_mono cs (i + 1) _ i (by simp)
    | succ j =>
      have hc : (c run.chainedReq).State ≠ ReqState.STOPPED := by
        have := hno 1 (le_refl 1) (by omega)
        rwa [runHandlers_cons, runHandlers_zero] at this
      simp only [hc, if_false]
      have := ih (i + 1) ⟨i + 1, c run.chainedReq, run.invoked ++ [i]⟩ j
        (by simpa using hj)
        (by
          intro t ht1 ht2
          have := hno (t + 1) (by omega) (by omega)
          rwa [runHandlers_cons] at this)
      have e : i + (j + 1) = i + 1 + j := by omega
      rw [e]
      exact this

/-- C17: only `STOPPED` ends the loop early.  In every chain, the handler at
position `j` (counted from 0) is called whenever each handler before it has
left the state `READY`, `ACTIVE` or `FINNISHED`; and a chain none of whose
handlers leaves `STOPPED` calls all its handlers, each once and in order, also
when one of them leaves `FINNISHED`. -/
theorem only_stopped_ends_chain {W : Type} (h : HandlerChain W) (w : W) (r : Request) (j : Nat)
    (hj : j < h.handlers.length)
    (hstates : ∀ t, 1 ≤ t → t ≤ j →
      (runHandlers h.handlers t ⟨w, r, ReqState.READY⟩).State = ReqState.READY ∨
      (runHandlers h.handlers t ⟨w, r, ReqState.READY⟩).State = ReqState.ACTIVE ∨
      (runHandlers h.handlers t ⟨w, r, ReqState.READY⟩).State = ReqState.FINNISHED) :
    j ∈ (h.ServeHTTP w r).2.2 ∧
    ((∀ t, 1 ≤ t → t ≤ h.handlers.length →
        (runHandlers h.handlers t ⟨w, r, ReqState.READY⟩).State = ReqState.READY ∨
        (runHandlers h.handlers t ⟨w, r, ReqState.READY⟩).State = ReqState.ACTIVE ∨
        (runHandlers h.handlers t ⟨w, r, ReqState.READY⟩).State = ReqState.FINNISHED) →
      (h.ServeHTTP w r).2.2 = List.range h.handlers.length ∧
      (h.ServeHTTP w r).1.numExc = h.handlers.length) := by
  have hne : ∀ s : ReqState,
      (s = ReqState.READY ∨ s = ReqState.ACTIVE ∨ s = ReqState.FINNISHED) →
      s ≠ ReqState.STOPPED := by
    intro s hs
    rcases hs with h | h | h <;> rw [h] <;> decide
  constructor
  · have := serveLoop_invokes h.handlers 0 ⟨h.numExc, ⟨w, r, ReqState.READY⟩, []⟩ j hj
      (fun t ht1 ht2 => hne _ (hstates t ht1 ht2))
    simpa [HandlerChain.ServeHTTP] using this
  · intro hall
    have hloop := serveLoop_exhausted h.handlers 0 ⟨h.numExc, ⟨w, r, ReqState.READY⟩, []⟩
      (fun t ht1 ht2 => hne _ (hall t ht1 ht2))
    have hpos : ¬ h.handlers.length = 0 := by omega
    simp only [HandlerChain.ServeHTTP, hloop, hpos, if_false]
    simp [List.range_eq_range']

/-- Witness for C17: a chain whose second handler leaves `FINNISHED` and whose
third leaves `READY`; the fourth handler is called all the same. -/
theorem only_stopped_ends_chain_witness :
    ((⟨0, [MockHandlerActive, MockHandlerFinnished, MockHandlerReady, MockHandlerActive]⟩ :
        HandlerChain Unit).ServeHTTP () (createGetRequest "/testblog".toList)).2.2
      = [0, 1, 2, 3] ∧
    3 ∈ ((⟨0, [MockHandlerActive, MockHandlerFinnished, MockHandlerReady, MockHandlerActive]⟩ :
        HandlerChain Unit).ServeHTTP () (createGetRequest "/testblog".toList)).2.2 :=
  ⟨by decide,
    (only_stopped_ends_chain
      (⟨0, [MockHandlerActive, MockHandlerFinnished, MockHandlerReady, MockHandlerActive]⟩ :
        HandlerChain Unit) () (createGetRequest "/testblog".toList) 3 (by decide)
      (by
        intro t ht1 ht2
        interval_cases t <;>
          simp [runHandlers, MockHandlerActive, MockHandlerFinnished, MockHandlerReady])).1⟩

/-! ## The method set -/

theorem char_toUpper_toUpper (c : Char) : c.toUpper.toUpper = c.toUpper := by
  by_cases h : c.toNat ≥ 97 ∧ c.toNat ≤ 122
  · have e : c.toUpper = Char.ofNat (c.toNat - 32) := by simp [Char.toUpper, h]
    rw [e]
    obtain ⟨h1, h2⟩ := h
    generalize c.toNat = n at h1 h2
    interval_cases n <;> rfl
  · have e : c.toUpper = c := by simp [Char.toUpper, h]
    rw [e, e]

theorem toUpper_toUpper (s : Str) : toUpper (toUpper s) = toUpper s := by
  simp [toUpper, char_toUpper_toUpper]

/-- `Method(m)` adds exactly the upper-cased `m` to the method set. -/
theorem methodWith_mem {H : Type} (upper : Str → Str) (r : Route H) (m x : Str) :
    x ∈ (r.MethodWith upper m).methods ↔ x ∈ r.methods ∨ x = upper m := by
  unfold Route.MethodWith
  by_cases h : r.methods.contains (upper m) = true
  · simp only [h, if_true]
    have hm : upper m ∈ r.methods := by simpa using h
    constructor
    · exact fun hx => Or.inl hx
    · rintro (hx | rfl)
      · exact hx
      · exact hm
  · simp only [h, if_false, List.mem_append, List.mem_singleton, Bool.false_eq_true]

theorem methodWith_of_mem {H : Type} (upper : Str → Str) (r : Route H) (m : Str)
    (h : r.methods.contains (upper m) = true) : r.MethodWith upper m = r := by
  simp only [Route.MethodWith, h, if_true]

/-- One `Method` call keeps every member of the method set upper-case. -/
theorem methodWith_upper {H : Type} (upper : Str → Str)
    (hidem : ∀ s, upper (upper s) = upper s) (r : Route H) (m : Str)
    (hr : ∀ x ∈ r.methods, upper x = x) : ∀ x ∈ (r.MethodWith upper m).methods, upper x = x := by
  intro x hx
  rcases (methodWith_mem upper r m x).mp hx with h | h
  · exact hr x h
  · rw [h]
    exact hidem m

theorem foldl_methodWith_upper {H : Type} (upper : Str → Str)
    (hidem : ∀ s, upper (upper s) = upper s) (ms : List Str) :
    ∀ r : Route H, (∀ x ∈ r.methods, upper x = x) →
      ∀ x ∈ (ms.foldl (Route.MethodWith upper) r).methods, upper x = x := by
  induction ms with
  | nil => intro r hr; exact hr
  | cons m ms ih =>
    intro r hr
    exact ih (r.MethodWith upper m) (methodWith_upper upper hidem r m hr)

/-- C18: whatever `strings.ToUpper` does to letters outside ASCII, as long as
upper-casing twice is upper-casing once and `get` becomes `GET`: every route
reached from `NewRoute()` by `Method` calls has a method set whose members are
upper-case (equal to their own upper-casing), and a `Method` call on any route
with such a set keeps it so; `Method(m)` adds exactly the upper-cased `m` to
the set, and a second `Method(m)` changes nothing; so after `Method("get")`
the set holds `GET` and the method test of `match` lets a `GET` request
pass, as on the route `NewRoute().Path("/route").Method("get")`, which accepts
a `GET` request and refuses a `POST` request. -/
theorem method_set_upper_case {H : Type} (upper : Str → Str)
    (hidem : ∀ s, upper (upper s) = upper s)
    (hget : upper "get".toList = "GET".toList)
    (ms : List Str) (r : Route H) (m : Str) (req : Request)
    (hr : ∀ x ∈ r.methods, upper x = x) (hreq : req.method = "GET".toList) :
    (∀ x ∈ (ms.foldl (Route.MethodWith upper) (NewRoute H)).methods, upper x = x) ∧
    (∀ x ∈ (r.MethodWith upper m).methods, upper x = x) ∧
    (∀ x, x ∈ (r.MethodWith upper m).methods ↔ x ∈ r.methods ∨ x = upper m) ∧
    (r.MethodWith upper m).MethodWith upper m = r.MethodWith upper m ∧
    "GET".toList ∈ (r.MethodWith upper "get".toList).methods ∧
    (decide ((r.MethodWith upper "get".toList).methods.length > 0) &&
      !(r.MethodWith upper "get".toList).methods.contains req.method) = false ∧
    ((pathRoute Unit "/route".toList).Method "get".toList).matchResult
      (createGetRequest "/route".toList) = some true ∧
    ((pathRoute Unit "/route".toList).Method "get".toList).matchResult
      (createPostRequest "/route".toList) = some false := by
  have hmem : "GET".toList ∈ (r.MethodWith upper "get".toList).methods :=
    (methodWith_mem upper r _ _).mpr (Or.inr hget.symm)
  refine ⟨?_, methodWith_upper upper hidem r m hr, methodWith_mem upper r m, ?_, hmem, ?_,
    by decide, by decide⟩
  · exact foldl_methodWith_upper upper hidem ms (NewRoute H) (by intro x hx; simp [NewRoute] at hx)
  · have hm : upper m ∈ (r.MethodWith upper m).methods :=
      (methodWith_mem upper r m _).mpr (Or.inr rfl)
    exact methodWith_of_mem upper (r.MethodWith upper m) m (by simpa using hm)
  · have hc : (r.MethodWith upper "get".toList).methods.contains req.method = true := by
      rw [hreq]
      simpa using hmem
    rw [hc]
    simp

/-- Witness for C18: the calls `Method("get")`, `Method("Post")`, `Method("GET")`
on `NewRoute()`, with the upper-casing of ASCII letters. -/
theorem method_set_upper_case_witness :
    (∀ s, toUpper (toUpper s) = toUpper s) ∧
    toUpper "get".toList = "GET".toList ∧
    (["get".toList, "Post".toList, "GET".toList].foldl (Route.MethodWith toUpper)
      (NewRoute Unit)).methods = ["GET".toList, "POST".toList] ∧
    (∀ x ∈ (["get".toList, "Post".toList, "GET".toList].foldl (Route.MethodWith toUpper)
      (NewRoute Unit)).methods, toUpper x = x) ∧
    "GET".toList ∈ ((pathRoute Unit "/route".toList).MethodWith toUpper "get".toList).methods :=
  have h := method_set_upper_case toUpper toUpper_toUpper (by decide)
    ["get".toList, "Post".toList, "GET".toList] (pathRoute Unit "/route".toList) "post".toList
    (createGetRequest "/route".toList) (by decide) (by decide)
  ⟨toUpper_toUpper, by decide, by decide, h.1, h.2.2.2.2.1⟩

/-! ## Failure at construction time only -/

theorem scanVars_length (s : Str) :
    ∀ cur : Option Str, (∀ acc, cur = some acc → 1 ≤ acc.length) →
      ∀ v ∈ scanVars cur s, 2 ≤ v.length := by
  induction s with
  | nil => intro cur _ v hv; simp [scanVars] at hv
  | cons c t ih =>
    intro cur hcur v hv
    cases cur with
    | none =>
      simp only [scanVars] at hv
      split at hv
      · exact ih (some ['{']) (fun acc h => by simp at h; subst h; simp) v hv
      · exact ih none (by simp) v hv
    | some acc =>
      have hacc := hcur acc rfl
      simp only [scanVars] at hv
      split at hv
      · rcases List.mem_cons.mp hv with rfl | hv
        · simp; omega
        · exact ih none (by simp) v hv
      · exact ih (some (acc ++ [c])) (fun a h => by simp at h; subst h; simp) v hv

theorem path_sets_matcher {H : Type} (compile : Str → Option Regexp) (r r1 : Route H) (t : Str)
    (h : r.Path compile t = some r1) : r1.urlMatcher.isSome := by
  unfold Route.Path at h
  split at h
  · simp at h
  · simp only [Option.some.injEq] at h
    subst h
    rfl

theorem step_keeps_matcher {H : Type} (compile : Str → Option Regexp) (r r1 : Route H)
    (hs : Route.Step compile r r1) (hr : r.urlMatcher.isSome) : r1.urlMatcher.isSome := by
  cases hs with
  | path _ t h => exact path_sets_matcher compile r r1 t h
  | pathPrefix _ t h =>
    obtain ⟨m, _, rfl⟩ := pathPrefix_appends compile r r1 t h
    exact hr
  | method m =>
    unfold Route.Method Route.MethodWith
    split
    · exact hr
    · exact hr
  | header _ k v h =>
    unfold Route.Header at h
    split at h
    · simp only [Option.some.injEq] at h
      subst h
      exact hr
    · split at h
      · simp at h
      · simp only [Option.some.injEq] at h
        subst h
        exact hr
  | handler h => exact hr
  | matched _ req req1 b h =>
    rw [(matchReq_keeps r r1 req req1 b h).2.1]
    exact hr

theorem steps_keep_matcher {H : Type} (compile : Str → Option Regexp) (r r1 : Route H)
    (hs : Route.Steps compile r r1) (hr : r.urlMatcher.isSome) : r1.urlMatcher.isSome := by
  unfold Route.Steps at hs
  induction hs with
  | refl => exact hr
  | tail _ hstep ih => exact step_keeps_matcher compile _ _ hstep ih

/-- C15: `Path` fails exactly when the pattern built from the template does
not compile (the slices and indices of `buildPathPattern` stay in range: every
token has at least its two braces and `Split` yields at least one field); and
on every route on which `Path` has succeeded, whatever builder calls and
`match` calls followed, `match` returns for every request, as does `findRoute`
on a router of such routes (the index into the submatch list stays in range,
the list being as long as the list of group names). -/
theorem path_fails_only_at_construction {H : Type} (compile : Str → Option Regexp)
    (r0 : Route H) (t : Str) :
    (r0.Path compile t = none ↔ compile (buildPathPattern t) = none) ∧
    (∀ v ∈ findAllVars t,
      2 ≤ v.length ∧ 1 ≤ (split ((v.drop 1).take (v.length - 2)) ':').length) ∧
    (∀ r1 r, r0.Path compile t = some r1 → Route.Steps compile r1 r →
      ∀ req, ∃ res, r.matchReq req = some res) ∧
    (∀ wr : WebRouter H,
      (∀ r ∈ wr.routes, ∃ (ra : Route H) (tb : Str) (rb : Route H),
        ra.Path compile tb = some rb ∧ Route.Steps compile rb r) →
      ∀ req, ∃ res, wr.findRoute req = some res) ∧
    (∀ (re : Regexp) (s : Str) (m : List Str) (i : Nat),
      re.FindStringSubmatch s = some m → i < re.SubexpNames.length → i < m.length) := by
  refine ⟨?_, ?_, ?_, ?_, ?_⟩
  · unfold Route.Path
    cases compile (buildPathPattern t) <;> simp
  · intro v hv
    exact ⟨scanVars_length t none (by simp) v hv, splitAux_length_pos ':' _ []⟩
  · intro r1 r hp hs req
    exact matchReq_isSome r req
      (steps_keep_matcher compile r1 r hs (path_sets_matcher compile r0 r1 t hp))
  · intro wr hwr req
    have hall : ∀ r ∈ wr.routes, r.urlMatcher.isSome := by
      intro r hr
      obtain ⟨ra, tb, rb, hp, hs⟩ := hwr r hr
      exact steps_keep_matcher compile rb r hs (path_sets_matcher compile ra rb tb hp)
    obtain ⟨res, rs, req1, hloop, _⟩ := findRouteLoop_spec wr.routes 0 [] req hall
    exact ⟨(res, ⟨rs⟩, req1), by simp [WebRouter.findRoute, hloop]⟩
  · intro re s m i hm hi
    rw [re.submatch_length s m hm]
    exact hi

end Web
